import Mathlib

namespace Ecs
/-!
Shallow embedding of the archetype ECS core: the chunked stable-index pool
("hive", from src/src/hive.h) and the hive-backed world / query iterator
(from src/unnamed/part_000).  Machine bytes are modelled as `Nat`; a byte
whose value the program never defined (uninitialized storage) is `none`.
Out-of-range accesses through unchecked `std::vector::operator[]` are
modelled by `Option`/`Except` failure values.
-/

abbrev Byte := Nat

/-- Chunk capacity: the source fixes `capacity(1024)` in `chunk::chunk`. -/
def chunkCap : Nat := 1024

/-- What a hive slot's storage currently holds: never-written memory, a row
of payload bytes copied in by `Archetype::insert`, or the free-list link
written by `chunk::remove` (`std::optional<uint16_t>` over the first bytes). -/
inductive SlotVal where
  | uninit : SlotVal
  | bytes (bs : List (Option Byte)) : SlotVal
  | link (l : Option Nat) : SlotVal
deriving DecidableEq

/-- One `chunk`: `size` slots of the buffer are initialized; `slots i` is the
current content of slot `i`.  (`stride`/`capacity` are the constants
`max(stride, sizeof(Data))` and 1024 of the source.) -/
structure ChunkM where
  size : Nat
  slots : Nat → SlotVal

/-- A freshly constructed `chunk` : `size = 0`, buffer uninitialized. -/
def freshChunk : ChunkM := ⟨0, fun _ => .uninit⟩

/-- Reading the slot's first bytes as `std::optional<uint16_t>`
(`chunk::create`, reuse path).  Reading memory that does not hold an
encoded link is undefined, modelled as `none`. -/
def readLink : SlotVal → Option (Option Nat)
  | .link l => some l
  | _ => none

/-- `chunk::create(index)`: returns the encoded next-free index and leaves
the slot to be filled by the caller.  `none` models the failing
`assert(size <= capacity)`. -/
def chunkCreate (c : ChunkM) (index : Nat) : Option (Option Nat × ChunkM) :=
  if index < c.size then
    (readLink (c.slots index)).map (fun l => (l, c))
  else
    let c' : ChunkM := ⟨c.size + 1, c.slots⟩
    if c.size + 1 = chunkCap then some (none, c')
    else if c.size + 1 ≤ chunkCap then some (some (c.size + 1), c')
    else none

/-- Overwrite slot `s` of a chunk with a value (used for both the free-list
link write of `chunk::remove` and the payload copy of `Archetype::insert`). -/
def chunkWrite (c : ChunkM) (s : Nat) (sv : SlotVal) : ChunkM :=
  ⟨c.size, fun j => if j = s then sv else c.slots j⟩

/-- `chunk::remove(index, next_free)`: write the encoded link over the slot. -/
def chunkRemove (c : ChunkM) (index : Nat) (nf : Option Nat) : ChunkM :=
  chunkWrite c index (.link nf)

/-- The rows of a chunk in slot order (slots `0..size-1`), as traversed by
`chunk::begin()`/`chunk::end()`. -/
def chunkRows (c : ChunkM) : List SlotVal :=
  (List.range c.size).map c.slots

/-- The `hive`: chunk vector `inner`, the optional global `next_free`
entry `(chunk, chunk_index)`, and `tinfo.size` (the row width). -/
structure HiveM where
  chunks : List ChunkM
  nextFree : Option (Nat × Nat)
  tinfoSize : Nat

/-- `hive::hive(size)`. -/
def hiveInit (sz : Nat) : HiveM := ⟨[], none, sz⟩

/-- All rows of a hive in chunk-then-slot order. -/
def hiveRows (h : HiveM) : List SlotVal :=
  (h.chunks.map chunkRows).flatten

/-- The second half of `hive::create()`: `inner[info.chunk].create(info
.chunk_index)` and the `next_free` update, on the chunk vector `chunks`
and entry `info`.  `none` models UB (out-of-range chunk access) or a
failed assertion. -/
def hiveCreateAt (tinfoSize : Nat) (info : Nat × Nat) (chunks : List ChunkM) :
    Option ((Nat × Nat) × HiveM) :=
  match chunks[info.1]? with
  | none => none
  | some c =>
    match chunkCreate c info.2 with
    | none => none
    | some (newNext, c') =>
      some (info, ⟨chunks.set info.1 c', newNext.map (fun n => (info.1, n)), tinfoSize⟩)

/-- `hive::create()`: pick `next_free` if present, else append a fresh chunk
and use its slot 0; then `chunk::create` on that slot updates `next_free`. -/
def hiveCreate (h : HiveM) : Option ((Nat × Nat) × HiveM) :=
  match h.nextFree with
  | some nf => hiveCreateAt h.tinfoSize nf h.chunks
  | none => hiveCreateAt h.tinfoSize (h.chunks.length, 0) (h.chunks ++ [freshChunk])

/-- `hive::remove(idx)`.  Faithful to the source, which indexes the chunk
vector with `info.chunk_index` (the slot ordinal) — `inner[info.chunk_index]
.remove(info.chunk_index, ...)` — not with `info.chunk`; `none` models the
resulting out-of-range `std::vector` access. -/
def hiveRemove (h : HiveM) (info : Nat × Nat) : Option HiveM :=
  let lnk : Option Nat := h.nextFree.map (fun nf => nf.2)
  match h.chunks[info.2]? with
  | none => none
  | some c =>
    some ⟨h.chunks.set info.2 (chunkRemove c info.2 lnk), some info, h.tinfoSize⟩

/-- Raw content of slot `(ci, si)`, if the chunk ordinal is in range. -/
def slotAt (h : HiveM) (ci si : Nat) : Option SlotVal :=
  (h.chunks[ci]?).map (fun c => c.slots si)

/-- Failure modes distinguished by the embedding: a failing fatal
`assert`, versus an unchecked out-of-range access (UB, no assertion). -/
inductive Fail where
  | assertFail : Fail
  | oobAccess : Fail
deriving DecidableEq

/-- The bytes a slot's storage holds (indeterminate storage reads as
`none`). -/
def slotBytes : SlotVal → List (Option Byte)
  | .bytes bs => bs
  | _ => []

/-- The byte span of length `n` viewed over a slot's content
(bytes the program never wrote read back as `none`). -/
def rowSpan (sv : SlotVal) (n : Nat) : List (Option Byte) :=
  (List.range n).map (fun j => (slotBytes sv).getD j none)

/-- `hive::get(idx)`: `assert(info.chunk <= inner.size())` — note `<=` —
then the unchecked `inner[info.chunk]`, returning a span of `tinfo.size`
bytes. -/
def hiveGetE (h : HiveM) (info : Nat × Nat) : Except Fail (List (Option Byte)) :=
  if info.1 ≤ h.chunks.length then
    match h.chunks[info.1]? with
    | some c => .ok (rowSpan (c.slots info.2) h.tinfoSize)
    | none => .error .oobAccess
  else .error .assertFail

/-- Insert-only well-formedness of a hive state (the shape every hive
reached from `hiveInit` by `hive::create` calls has): every chunk but the
last is full, every chunk is nonempty and within capacity, and `next_free`
points at the first unused slot of the last chunk iff that chunk is not
full. -/
def HiveWF (h : HiveM) : Prop :=
  (∀ i c, i + 1 < h.chunks.length → h.chunks[i]? = some c → c.size = chunkCap) ∧
  (∀ c ∈ h.chunks, 0 < c.size ∧ c.size ≤ chunkCap) ∧
  (match h.nextFree with
   | none => h.chunks = [] ∨ ∃ c, h.chunks.getLast? = some c ∧ c.size = chunkCap
   | some i => i.1 + 1 = h.chunks.length ∧
       ∃ c, h.chunks.getLast? = some c ∧ i.2 = c.size ∧ c.size < chunkCap)

/-! ## Archetype and world (src/unnamed/part_000) -/

/-- `Archetype<N>`: component-set bitmask (`std::bitset` modelled as the
`Nat` of its bits), `type_info.size` (the row width), and the embedded hive. -/
structure ArchetypeM where
  types : Nat
  tinfo : Nat
  data : HiveM

/-- `Archetype::Archetype(types, tinfo)` (the hive is built with
`tinfo.size`). -/
def archetypeInit (types tinfo : Nat) : ArchetypeM :=
  ⟨types, tinfo, hiveInit tinfo⟩

/-- The chunk() stride: `max(stride, sizeof(Data))`, with
`sizeof(chunk::Data) = sizeof(std::optional<uint16_t>) = 4`. -/
def chunkStride (w : Nat) : Nat := max w 4

/-- Write a slot of a hive (the caller-side `std::copy` through the pointer
returned by `hive::create`, or the link write of `hive::remove`). -/
def writeSlot (h : HiveM) (info : Nat × Nat) (sv : SlotVal) : HiveM :=
  match h.chunks[info.1]? with
  | some c => ⟨h.chunks.set info.1 (chunkWrite c info.2 sv), h.nextFree, h.tinfoSize⟩
  | none => h

/-- `Archetype::insert(src)`: allocate a hive slot, copy the row bytes in.
`none` models a failed allocation or a copy overrunning the slot's stride
(the source has no check; the overrun would be UB). -/
def archetypeInsert (a : ArchetypeM) (row : List (Option Byte)) :
    Option ((Nat × Nat) × ArchetypeM) :=
  match hiveCreate a.data with
  | none => none
  | some (idx, h') =>
    if row.length ≤ chunkStride a.data.tinfoSize then
      some (idx, ⟨a.types, a.tinfo, writeSlot h' idx (.bytes row)⟩)
    else none

/-- `basic_world<Registry>`: the registry is modelled by the assignment
`ordinal ↦ byte size` it has produced (`registry.size`), the archetype
vector is `archetypes`. -/
structure WorldM where
  sizes : List Nat
  archetypes : List ArchetypeM

/-- `basic_world::as_type_set<Ts...>()`: fold `b |= 1 << index` over the
ordinals of the argument pack. -/
def asTypeSet (ks : List Nat) : Nat :=
  ks.foldl (fun m k => m ||| (1 <<< k)) 0

/-- `basic_world::offset_in<T>(types)`: sum `registry.size(i)` over
`i < ordinal_of T` with bit `i` set in `types`. -/
def offset_in (sizes : List Nat) (k : Nat) (mask : Nat) : Nat :=
  (List.range k).foldl (fun acc i => if mask.testBit i then acc + sizes.getD i 0 else acc) 0

/-- `std::copy` of the bytes of one component value into the scratch row at
a given offset. -/
def writeBytesAt : List (Option Byte) → Nat → List Byte → List (Option Byte)
  | row, _, [] => row
  | row, off, x :: xs => writeBytesAt (row.set off (some x)) (off + 1) xs

/-- The scratch row built by `basic_world::insert`: a default-initialized
(`none` = indeterminate) buffer of `N = sizeof(std::tuple<Ts...>)` bytes
into which each argument value is copied at `offset_in` of its ordinal.
`args` lists `(ordinal, value bytes)` in call order; `N` is the
compile-time tuple size of the call's pack. -/
def buildRow (sizes : List Nat) (args : List (Nat × List Byte)) (N : Nat) :
    List (Option Byte) :=
  let mask := asTypeSet (args.map Prod.fst)
  args.foldl (fun r kv => writeBytesAt r (offset_in sizes kv.1 mask) kv.2)
    (List.replicate N none)

/-- The scan loop of `find_or_insert_archetype_idx`: index of the first
archetype whose mask equals `types`. -/
def findMaskIdx : List ArchetypeM → Nat → Option Nat
  | [], _ => none
  | a :: t, types =>
    if a.types = types then some 0 else (findMaskIdx t types).map (· + 1)

/-- `basic_world::find_or_insert_archetype_idx`: linear scan for the first
archetype with exactly this mask, else append a new one. -/
def findOrInsertArchetypeIdx (arr : List ArchetypeM) (types tinfo : Nat) :
    Nat × List ArchetypeM :=
  match findMaskIdx arr types with
  | some i => (i, arr)
  | none => (arr.length, arr ++ [archetypeInit types tinfo])

/-- The decoded `entity_info` of an `entity_t` handle. -/
structure Handle where
  generation : Nat
  archetype : Nat
  idx : Nat × Nat
deriving DecidableEq

/-- The second half of `basic_world::insert`: the hive insert into the
found/created archetype of `fi` and the handle construction. -/
def worldInsertAt (sizes : List Nat) (row : List (Option Byte))
    (fi : Nat × List ArchetypeM) : Option (Handle × WorldM) :=
  match fi.2[fi.1]? with
  | none => none
  | some a =>
    match archetypeInsert a row with
    | none => none
    | some (idx, a') => some (⟨0, fi.1, idx⟩, ⟨sizes, fi.2.set fi.1 a'⟩)

/-- `basic_world::insert(ts...)`: build the scratch row, find or create the
archetype of the call's mask, insert the row into its hive, return the
handle. -/
def worldInsert (w : WorldM) (args : List (Nat × List Byte)) (N : Nat) :
    Option (Handle × WorldM) :=
  worldInsertAt w.sizes (buildRow w.sizes args N)
    (findOrInsertArchetypeIdx w.archetypes (asTypeSet (args.map Prod.fst)) N)

/-- A world built from the empty world by a sequence of `insert` calls
(each call: its `(ordinal, bytes)` arguments and its tuple size `N`). -/
def buildWorld (sizes : List Nat) (calls : List (List (Nat × List Byte) × Nat)) :
    Option WorldM :=
  calls.foldl (fun ow call => ow.bind fun w => (worldInsert w call.1 call.2).map Prod.snd)
    (some ⟨sizes, []⟩)

/-- The byte slice `[off, off+n)` of a row span. -/
def sliceRow (row : List (Option Byte)) (off n : Nat) : List (Option Byte) :=
  (List.range n).map (fun j => row.getD (off + j) none)

/-- `basic_world::entity<Ts...>(ent)`: the *unchecked* `archetypes_[...]`
access comes first (out of range = UB, no assertion), then the
`assert((needed & archetype.types) == needed)` subset check, then
`archetype.at` (= `hive::get`), then the typed reads at the canonical
offsets. -/
def worldEntityE (w : WorldM) (ent : Handle) (ks : List Nat) :
    Except Fail (List (List (Option Byte))) :=
  match w.archetypes[ent.archetype]? with
  | none => .error .oobAccess
  | some a =>
    let needed := asTypeSet ks
    if needed &&& a.types = needed then
      match hiveGetE a.data ent.idx with
      | .error e => .error e
      | .ok row =>
        .ok (ks.map (fun k => sliceRow row (offset_in w.sizes k a.types) (w.sizes.getD k 0)))
    else .error .assertFail

/-! ## Iterators (hive_iterator of src/src/hive.h, query_iterator of
src/unnamed/part_000) -/

/-- `hive_iterator` state: `chunk_cur`/`chunk_end` as positions in the
chunk vector, `item_cur`/`item_end` as slot positions in the current chunk
(`none` = `nullptr`). -/
structure HiveIt where
  chunkCur : Nat
  chunkEnd : Nat
  itemCur : Option Nat
  itemEnd : Option Nat
deriving DecidableEq

/-- A default-constructed `hive_iterator{}`. -/
def hiveItDefault : HiveIt := ⟨0, 0, none, none⟩

/-- `hive_iterator::end()`: `chunk_cur = chunk_end`, null item pointers. -/
def hiveItSentinel (n : Nat) : HiveIt := ⟨n, n, none, none⟩

/-- `operator==(hive_iterator, hive_iterator)`: compares `item_cur` and
`chunk_cur` only. -/
def hiveItEq (a b : HiveIt) : Bool :=
  a.itemCur == b.itemCur && a.chunkCur == b.chunkCur

/-- `hive_iterator::next_chunk()`. -/
def nextChunk (chunks : List ChunkM) (it : HiveIt) : HiveIt :=
  if it.chunkCur = it.chunkEnd then hiveItSentinel it.chunkEnd
  else
    match chunks[it.chunkCur]? with
    | some c => ⟨it.chunkCur, it.chunkEnd, some 0, some c.size⟩
    | none => ⟨it.chunkCur, it.chunkEnd, some 0, some 0⟩

/-- `hive_iterator::operator++`. -/
def hiveItInc (chunks : List ChunkM) (it : HiveIt) : HiveIt :=
  let it1 : HiveIt := ⟨it.chunkCur, it.chunkEnd, it.itemCur.map (· + 1), it.itemEnd⟩
  if it1.itemCur ≠ it1.itemEnd then it1
  else nextChunk chunks ⟨it.chunkCur + 1, it.chunkEnd, it1.itemCur, it1.itemEnd⟩

/-- `hive_iterator::hive_iterator(hive*)`: start at the chunk vector's
begin and call `next_chunk`. -/
def hiveItOfHive (chunks : List ChunkM) : HiveIt :=
  nextChunk chunks ⟨0, chunks.length, none, none⟩

/-- Dereference `*it`: the row under the iterator, if any. -/
def hiveItDeref (chunks : List ChunkM) (it : HiveIt) : Option SlotVal :=
  match it.itemCur with
  | none => none
  | some s =>
    match chunks[it.chunkCur]? with
    | some c => some (c.slots s)
    | none => none

/-- `hive::begin()` — which the source defines as
`hive_iterator{this}.end()`, i.e. the *sentinel*. -/
def hiveBegin (h : HiveM) : HiveIt := hiveItSentinel h.chunks.length

/-- `hive::end()` — which the source defines as `hive_iterator{this}`,
i.e. the iterator positioned at the *first* allocated row. -/
def hiveEnd (h : HiveM) : HiveIt := hiveItOfHive h.chunks

/-- `Archetype::begin()` = `data.end()`. -/
def archetypeBegin (a : ArchetypeM) : HiveIt := hiveEnd a.data

/-- `Archetype::end()` = `data.begin()`. -/
def archetypeEnd (a : ArchetypeM) : HiveIt := hiveBegin a.data

/-- `query_iterator` state `M` (the world pointer is passed explicitly to
the operations). -/
structure QueryIt where
  types : Nat
  archCur : Nat
  archEnd : Nat
  hCur : HiveIt
  hEnd : HiveIt
  offsets : List Nat
deriving DecidableEq

/-- `query_iterator::end()`: both archetype cursors at the vector's end,
value-initialized hive iterators and offsets. -/
def queryEnd (R archEnd numTs : Nat) : QueryIt :=
  ⟨R, archEnd, archEnd, hiveItDefault, hiveItDefault, List.replicate numTs 0⟩

/-- `operator==(query_iterator, query_iterator)` compares only
`m.archetype_cur`. -/
def queryEq (a b : QueryIt) : Bool := hiveItEq a.hCur b.hCur

/-- The chunk list of the archetype under `archetypes_vector_cur`. -/
def chunksAt (w : WorldM) (k : Nat) : List ChunkM :=
  match w.archetypes[k]? with
  | some a => a.data.chunks
  | none => []

/-- `query_iterator::find_next_archetype`, with the while loop unrolled by
the remaining distance `archEnd - archCur` (second `Nat` argument). -/
def findNextAux (w : WorldM) (ks : List Nat) (R len : Nat) : Nat → Nat → QueryIt
  | _, 0 => queryEnd R len ks.length
  | k, fuel + 1 =>
    match w.archetypes[k]? with
    | some a =>
      if a.types &&& R = R then
        ⟨R, k, len, archetypeBegin a, archetypeEnd a,
          ks.map (fun t => offset_in w.sizes t a.types)⟩
      else findNextAux w ks R len (k + 1) fuel
    | none => queryEnd R len ks.length

/-- `find_next_archetype` from position `k` in an archetype vector of
length `len`. -/
def findNextArchetype (w : WorldM) (ks : List Nat) (R k len : Nat) : QueryIt :=
  findNextAux w ks R len k (len - k)

/-- `query_iterator::query_iterator(world*)` as produced by
`basic_world::query<Ts...>()`. -/
def queryInit (w : WorldM) (ks : List Nat) : QueryIt :=
  findNextArchetype w ks (asTypeSet ks) 0 w.archetypes.length

/-- `query_iterator::operator++`. -/
def queryInc (w : WorldM) (ks : List Nat) (q : QueryIt) : QueryIt :=
  let h' := hiveItInc (chunksAt w q.archCur) q.hCur
  if hiveItEq h' q.hEnd then findNextArchetype w ks q.types (q.archCur + 1) q.archEnd
  else ⟨q.types, q.archCur, q.archEnd, h', q.hEnd, q.offsets⟩

/-- The client loop `for (it = q.begin(); it != q.end(); ++it) use(*it)`,
collecting the rows dereferenced, with step budget `fuel`. -/
def queryRun (w : WorldM) (ks : List Nat) : Nat → QueryIt → List SlotVal
  | 0, _ => []
  | fuel + 1, q =>
    if queryEq q (queryEnd q.types q.archEnd ks.length) then []
    else
      match hiveItDeref (chunksAt w q.archCur) q.hCur with
      | some r => r :: queryRun w ks fuel (queryInc w ks q)
      | none => []

/-- The rows a query over mask `R` must visit: all rows of the archetypes
whose mask is a superset of `R`, in the world's archetype order, each
archetype's rows in chunk-then-slot order. -/
def queryTraceSpec (w : WorldM) (R : Nat) : List SlotVal :=
  ((w.archetypes.filter (fun a => a.types &&& R == R)).map (fun a => hiveRows a.data)).flatten

/-- Total number of rows in all archetypes of a world. -/
def totalRows (w : WorldM) : Nat :=
  ((w.archetypes.map (fun a => (hiveRows a.data).length)).sum)

/-- Insert-only well-formedness of a world: every archetype's hive is in
insert-only shape and nonempty (every archetype is created by an insert
that immediately adds a row). -/
def WorldWF (w : WorldM) : Prop :=
  ∀ a ∈ w.archetypes, HiveWF a.data ∧ a.data.chunks ≠ []

/-! ## Basic lemmas: masks, offsets, scratch-row writes -/

/-- The width `W` of a mask: the sum of registered sizes of the kinds in
the mask (used by the spec's invariants; the code never computes it). -/
def maskWidth (sizes : List Nat) (mask : Nat) : Nat :=
  offset_in sizes sizes.length mask

/-! ## Characterizing the scratch row built by insert -/

/-- Does some argument's copied bytes cover position `p` of the scratch
row? -/
def writtenAt (sizes : List Nat) (args : List (Nat × List Byte)) (p : Nat) : Bool :=
  let mask := asTypeSet (args.map Prod.fst)
  args.any (fun kv =>
    offset_in sizes kv.1 mask ≤ p && p < offset_in sizes kv.1 mask + kv.2.length)

/-- Well-formed insert arguments: pairwise distinct registered ordinals,
each value's byte length is its registered size, and the mask's width fits
in the scratch buffer. -/
def ArgsWF (sizes : List Nat) (args : List (Nat × List Byte)) (N : Nat) : Prop :=
  (args.map Prod.fst).Nodup ∧
  (∀ kv ∈ args, kv.1 < sizes.length ∧ kv.2.length = sizes.getD kv.1 0) ∧
  maskWidth sizes (asTypeSet (args.map Prod.fst)) ≤ N

/-! ## Running the query iterator -/

/-- The iterator state inside matching archetype `k` of a world with `len`
archetypes: positioned at slot `si` of chunk `ci`, the current chunk
holding `sz` rows, the hive sentinel as row end. -/
def atState (R k len clen : Nat) (offs : List Nat) (ci si sz : Nat) : QueryIt :=
  ⟨R, k, len, ⟨ci, clen, some si, some sz⟩, hiveItSentinel clen, offs⟩

/-- The observable run of the client loop
`for (it = q; it != q.end(); ++it) use(*it)`, as a relation between the
starting iterator and the list of rows dereferenced. -/
inductive RunTo (w : WorldM) (ks : List Nat) : QueryIt → List SlotVal → Prop where
  | halt (q : QueryIt)
      (h : queryEq q (queryEnd q.types q.archEnd ks.length) = true) : RunTo w ks q []
  | step (q : QueryIt) (r : SlotVal) (rest : List SlotVal)
      (hne : queryEq q (queryEnd q.types q.archEnd ks.length) = false)
      (hd : hiveItDeref (chunksAt w q.archCur) q.hCur = some r)
      (hnext : RunTo w ks (queryInc w ks q) rest) : RunTo w ks q (r :: rest)

/-! ## Hive-level iteration (for the begin/end wiring claims) -/

/-- The client loop `for (it = start; it != stop; ++it) use(*it)` at hive
level, with step budget `fuel`. -/
def hiveIterate (chunks : List ChunkM) : Nat → HiveIt → HiveIt → List SlotVal
  | 0, _, _ => []
  | fuel + 1, it, stop =>
    if hiveItEq it stop then []
    else
      match hiveItDeref chunks it with
      | some r => r :: hiveIterate chunks fuel (hiveItInc chunks it) stop
      | none => []

/-- Observable hive-level runs. -/
inductive HRunTo (chunks : List ChunkM) (stop : HiveIt) : HiveIt → List SlotVal → Prop where
  | halt (it : HiveIt) (h : hiveItEq it stop = true) : HRunTo chunks stop it []
  | step (it : HiveIt) (r : SlotVal) (rest : List SlotVal)
      (hne : hiveItEq it stop = false)
      (hd : hiveItDeref chunks it = some r)
      (hnext : HRunTo chunks stop (hiveItInc chunks it) rest) :
      HRunTo chunks stop it (r :: rest)

/-- The world used as concrete evidence for the bounds-check claim: one
insert, hence one archetype whose hive has one chunk. -/
def witC7World : WorldM :=
  ((worldInsert ⟨[4, 4], []⟩ [(0, [1, 2, 3, 4])] 4).map Prod.snd).getD ⟨[], []⟩

def witC7Hive : HiveM := (witC7World.archetypes.getD 0 (archetypeInit 0 0)).data

/-! ## Concrete instances of the generic theorems -/

def witSizes : List Nat := [4, 4]

def witCalls : List (List (Nat × List Byte) × Nat) :=
  [([(0, [1, 2, 3, 4]), (1, [9, 9, 9, 9])], 8), ([(0, [5, 6, 7, 8])], 4)]

def witWorld : WorldM := (buildWorld witSizes witCalls).getD ⟨[], []⟩

def witEmptyWorld : WorldM := ⟨[4, 4], []⟩

def witArgsAB : List (Nat × List Byte) := [(0, [1, 2, 3, 4]), (1, [5, 6, 7, 8])]

def witArgsBA : List (Nat × List Byte) := [(1, [5, 6, 7, 8]), (0, [1, 2, 3, 4])]

def witInsAB : Handle × WorldM :=
  (worldInsert witEmptyWorld witArgsAB 8).getD (⟨0, 0, (0, 0)⟩, ⟨[], []⟩)

def witInsBA : Handle × WorldM :=
  (worldInsert witEmptyWorld witArgsBA 8).getD (⟨0, 0, (0, 0)⟩, ⟨[], []⟩)

theorem asTypeSet_aux (ks : List Nat) (m : Nat) (j : Nat) :
    (ks.foldl (fun m k => m ||| (1 <<< k)) m).testBit j =
      (m.testBit j || ks.any (fun k => k == j)) := by
  induction ks generalizing m with
  | nil => simp
  | cons k t ih =>
    simp only [List.foldl_cons, ih, List.any_cons, Nat.testBit_or]
    have h1 : (1 <<< k) = 2 ^ k := by simp [Nat.shiftLeft_eq]
    by_cases h : k = j
    · subst h
      simp [h1, Nat.testBit_two_pow_self, Bool.or_comm, Bool.or_assoc, Bool.or_left_comm]
    · have hkj : (k == j) = false := by simp [h]
      simp [h1, Nat.testBit_two_pow_of_ne h, hkj]

/-- Bit `j` of `as_type_set ks` is set iff `j` is one of the ordinals. -/
theorem testBit_asTypeSet (ks : List Nat) (j : Nat) :
    (asTypeSet ks).testBit j = ks.any (fun k => k == j) := by
  simpa [asTypeSet] using asTypeSet_aux ks 0 j

theorem offset_in_succ (sizes : List Nat) (k : Nat) (mask : Nat) :
    offset_in sizes (k + 1) mask =
      offset_in sizes k mask + (if mask.testBit k then sizes.getD k 0 else 0) := by
  unfold offset_in
  rw [List.range_succ, List.foldl_append]
  simp only [List.foldl_cons, List.foldl_nil]
  by_cases h : mask.testBit k <;> simp [h]

/-- `offset_in` equals the canonical sum
`Σ size_of(i) for i < o, i ∈ mask`. -/
theorem offset_in_eq_sum (sizes : List Nat) (k : Nat) (mask : Nat) :
    offset_in sizes k mask =
      ∑ i ∈ Finset.range k, (if mask.testBit i then sizes.getD i 0 else 0) := by
  induction k with
  | zero => simp [offset_in]
  | succ n ih => rw [offset_in_succ, Finset.sum_range_succ, ih]

theorem offset_in_mono (sizes : List Nat) (mask : Nat) {j k : Nat} (h : j ≤ k) :
    offset_in sizes j mask ≤ offset_in sizes k mask := by
  induction k with
  | zero => simp_all
  | succ n ih =>
    rcases Nat.lt_or_ge j (n + 1) with hlt | hge
    · exact le_trans (ih (Nat.lt_succ_iff.mp hlt)) (by rw [offset_in_succ]; omega)
    · have : j = n + 1 := le_antisymm h hge
      simp [this]

/-- If bit `j` is set and `j < k` then the field of ordinal `j` lies
entirely below `offset_in k`. -/
theorem offset_in_field_le (sizes : List Nat) (mask : Nat) {j k : Nat}
    (hjk : j < k) (hbit : mask.testBit j = true) :
    offset_in sizes j mask + sizes.getD j 0 ≤ offset_in sizes k mask := by
  have h1 : offset_in sizes (j + 1) mask = offset_in sizes j mask + sizes.getD j 0 := by
    rw [offset_in_succ, hbit]; simp
  calc offset_in sizes j mask + sizes.getD j 0 = offset_in sizes (j + 1) mask := h1.symm
    _ ≤ offset_in sizes k mask := offset_in_mono sizes mask hjk

/-- Every field of the mask lies within the mask's width. -/
theorem offset_in_lt_maskWidth (sizes : List Nat) (mask : Nat) {k : Nat}
    (hk : k < sizes.length) (hbit : mask.testBit k = true) :
    offset_in sizes k mask + sizes.getD k 0 ≤ maskWidth sizes mask :=
  offset_in_field_le sizes mask hk hbit

theorem writeBytesAt_length (v : List Byte) (row : List (Option Byte)) (off : Nat) :
    (writeBytesAt row off v).length = row.length := by
  induction v generalizing row off with
  | nil => rfl
  | cons x xs ih => simp [writeBytesAt, ih]

theorem writeBytesAt_getElem?_outside (v : List Byte) (row : List (Option Byte))
    (off p : Nat) (h : p < off ∨ off + v.length ≤ p) :
    (writeBytesAt row off v)[p]? = row[p]? := by
  induction v generalizing row off with
  | nil => rfl
  | cons x xs ih =>
    have h' : p < off + 1 ∨ off + 1 + xs.length ≤ p := by
      rcases h with h | h
      · exact Or.inl (by omega)
      · exact Or.inr (by simp at h; omega)
    have hne : off ≠ p := by rcases h with h | h; · omega
                             · simp at h; omega
    simp only [writeBytesAt]
    rw [ih _ _ h', List.getElem?_set_ne hne]

theorem writeBytesAt_getElem?_inside (v : List Byte) (row : List (Option Byte))
    (off : Nat) {j : Nat} (hj : j < v.length) (hfit : off + v.length ≤ row.length) :
    (writeBytesAt row off v)[off + j]? = some (some (v.getD j 0)) := by
  induction v generalizing row off j with
  | nil => simp at hj
  | cons x xs ih =>
    have hfit' : off + 1 + xs.length ≤ row.length := by simp at hfit; omega
    simp only [writeBytesAt]
    cases j with
    | zero =>
      rw [writeBytesAt_getElem?_outside xs _ _ _ (Or.inl (by omega))]
      have hofflt : off < row.length := by simp at hfit; omega
      have := @List.getElem?_set_self _ row off (some x) hofflt
      simpa using this
    | succ n =>
      have harith : off + (n + 1) = (off + 1) + n := by omega
      have hn : n < xs.length := by simp at hj; omega
      rw [harith, ih _ _ hn (by rw [List.length_set]; exact hfit')]
      simp

theorem scatter_fold_length (off : Nat × List Byte → Nat)
    (l : List (Nat × List Byte)) (init : List (Option Byte)) :
    (l.foldl (fun r kv => writeBytesAt r (off kv) kv.2) init).length = init.length := by
  induction l generalizing init with
  | nil => rfl
  | cons kv t ih => simp [ih, writeBytesAt_length]

theorem scatter_fold_outside (off : Nat × List Byte → Nat)
    (l : List (Nat × List Byte)) (init : List (Option Byte)) (p : Nat)
    (h : ∀ kv ∈ l, p < off kv ∨ off kv + kv.2.length ≤ p) :
    (l.foldl (fun r kv => writeBytesAt r (off kv) kv.2) init)[p]? = init[p]? := by
  induction l generalizing init with
  | nil => rfl
  | cons kv t ih =>
    simp only [List.foldl_cons]
    rw [ih _ (fun kv' h' => h kv' (List.mem_cons_of_mem _ h')),
      writeBytesAt_getElem?_outside _ _ _ _ (h kv (List.mem_cons_self _ _))]

theorem scatter_fold_hit (off : Nat × List Byte → Nat)
    (l : List (Nat × List Byte)) (init : List (Option Byte))
    (kv : Nat × List Byte) (hmem : kv ∈ l)
    (hnd : (l.map Prod.fst).Nodup)
    (hdisj : ∀ kv1 ∈ l, ∀ kv2 ∈ l, kv1.1 ≠ kv2.1 →
      off kv1 + kv1.2.length ≤ off kv2 ∨ off kv2 + kv2.2.length ≤ off kv1)
    {j : Nat} (hj : j < kv.2.length)
    (hfit : ∀ kv' ∈ l, off kv' + kv'.2.length ≤ init.length) :
    (l.foldl (fun r kv => writeBytesAt r (off kv) kv.2) init)[off kv + j]? =
      some (some (kv.2.getD j 0)) := by
  induction l generalizing init with
  | nil => simp at hmem
  | cons hd t ih =>
    simp only [List.foldl_cons]
    rcases List.mem_cons.mp hmem with heq | hmem'
    · subst heq
      rw [scatter_fold_outside]
      · exact writeBytesAt_getElem?_inside _ _ _ hj (hfit kv (List.mem_cons_self _ _))
      · intro kv' h'
        have hne : kv'.1 ≠ kv.1 := by
          intro hcontra
          have : kv'.1 ∈ t.map Prod.fst := List.mem_map_of_mem _ h'
          rw [hcontra] at this
          exact (List.nodup_cons.mp hnd).1 this
        rcases hdisj kv' (List.mem_cons_of_mem _ h') kv (List.mem_cons_self _ _) hne with
          hcase | hcase
        · right; omega
        · left; omega
    · exact ih _ hmem' (List.nodup_cons.mp hnd).2
        (fun a ha b hb => hdisj a (List.mem_cons_of_mem _ ha) b (List.mem_cons_of_mem _ hb))
        (fun kv' h' => by
            rw [writeBytesAt_length]; exact hfit kv' (List.mem_cons_of_mem _ h'))

theorem buildRow_length (sizes : List Nat) (args : List (Nat × List Byte)) (N : Nat) :
    (buildRow sizes args N).length = N := by
  unfold buildRow
  rw [scatter_fold_length]
  exact List.length_replicate _ _

/-- An ordinal appearing among the arguments has its bit set in the call's
mask. -/
theorem testBit_asTypeSet_of_mem {ks : List Nat} {k : Nat} (h : k ∈ ks) :
    (asTypeSet ks).testBit k = true := by
  rw [testBit_asTypeSet]
  exact List.any_eq_true.mpr ⟨k, h, by simp⟩

/-- Distinct registered ordinals in the call occupy disjoint byte ranges
of the row. -/
theorem arg_regions_disjoint (sizes : List Nat) (args : List (Nat × List Byte))
    (hargs : ∀ kv ∈ args, kv.1 < sizes.length ∧ kv.2.length = sizes.getD kv.1 0)
    (kv1 : Nat × List Byte) (h1 : kv1 ∈ args) (kv2 : Nat × List Byte) (h2 : kv2 ∈ args)
    (hne : kv1.1 ≠ kv2.1) :
    (let mask := asTypeSet (args.map Prod.fst)
     offset_in sizes kv1.1 mask + kv1.2.length ≤ offset_in sizes kv2.1 mask ∨
     offset_in sizes kv2.1 mask + kv2.2.length ≤ offset_in sizes kv1.1 mask) := by
  intro mask
  have hb1 : mask.testBit kv1.1 = true :=
    testBit_asTypeSet_of_mem (List.mem_map_of_mem _ h1)
  have hb2 : mask.testBit kv2.1 = true :=
    testBit_asTypeSet_of_mem (List.mem_map_of_mem _ h2)
  rcases Nat.lt_or_ge kv1.1 kv2.1 with hlt | hge
  · left
    rw [(hargs kv1 h1).2]
    exact offset_in_field_le sizes mask hlt hb1
  · right
    have hlt : kv2.1 < kv1.1 := by omega
    rw [(hargs kv2 h2).2]
    exact offset_in_field_le sizes mask hlt hb2

/-- The byte of the stored row under argument `kv` at offset `j`. -/
theorem buildRow_getElem?_arg (sizes : List Nat) (args : List (Nat × List Byte))
    (N : Nat) (hwf : ArgsWF sizes args N) (kv : Nat × List Byte) (hmem : kv ∈ args)
    {j : Nat} (hj : j < kv.2.length) :
    (buildRow sizes args N)[offset_in sizes kv.1 (asTypeSet (args.map Prod.fst)) + j]? =
      some (some (kv.2.getD j 0)) := by
  obtain ⟨hnd, hargs, hW⟩ := hwf
  unfold buildRow
  exact scatter_fold_hit _ _ _ kv hmem hnd
    (fun a ha b hb hne => arg_regions_disjoint sizes args hargs a ha b hb hne)
    hj
    (fun kv' h' => by
      rw [List.length_replicate]
      have hb : (asTypeSet (args.map Prod.fst)).testBit kv'.1 = true :=
        testBit_asTypeSet_of_mem (List.mem_map_of_mem _ h')
      have := offset_in_lt_maskWidth sizes (asTypeSet (args.map Prod.fst))
        (hargs kv' h').1 hb
      rw [← (hargs kv' h').2] at this
      omega)

/-- A position of the scratch row no argument covers keeps its
default-initialized (indeterminate) value. -/
theorem buildRow_getD_not_written (sizes : List Nat) (args : List (Nat × List Byte))
    (N p : Nat) (h : writtenAt sizes args p = false) :
    (buildRow sizes args N).getD p none = none := by
  unfold buildRow
  rw [List.getD_eq_getElem?_getD, scatter_fold_outside]
  · rcases Nat.lt_or_ge p N with hp | hp
    · simp [List.getElem?_replicate, hp]
    · rw [List.getElem?_eq_none (by simpa using hp)]; rfl
  · intro kv hkv
    by_contra hcon
    push_neg at hcon
    obtain ⟨h1, h2⟩ := hcon
    have htrue : writtenAt sizes args p = true := by
      simp only [writtenAt, List.any_eq_true]
      exact ⟨kv, hkv, by simp only [Bool.and_eq_true, decide_eq_true_eq]; omega⟩
    rw [htrue] at h
    exact Bool.true_eq_false.mp h

/-! ## Reading rows back -/

theorem rowSpan_getD (sv : SlotVal) (n p : Nat) :
    (rowSpan sv n).getD p none =
      if p < n then (slotBytes sv).getD p none else none := by
  rw [List.getD_eq_getElem?_getD]
  unfold rowSpan
  rw [List.getElem?_map]
  by_cases h : p < n
  · rw [List.getElem?_range h, if_pos h]
    rfl
  · rw [List.getElem?_eq_none (by simpa using Nat.le_of_not_lt h), if_neg h]
    rfl

theorem sliceRow_getElem? (row : List (Option Byte)) (off n j : Nat) (hj : j < n) :
    (sliceRow row off n)[j]? = some (row.getD (off + j) none) := by
  unfold sliceRow
  rw [List.getElem?_map, List.getElem?_range hj]
  rfl

theorem sliceRow_length (row : List (Option Byte)) (off n : Nat) :
    (sliceRow row off n).length = n := by
  simp [sliceRow]

/-- Reading back the field of argument `kv` from the stored row (viewed as
a span of any length `M` at least the mask's width) yields exactly the
argument's bytes. -/
theorem read_back_arg (sizes : List Nat) (args : List (Nat × List Byte)) (N M : Nat)
    (hwf : ArgsWF sizes args N)
    (hM : maskWidth sizes (asTypeSet (args.map Prod.fst)) ≤ M)
    (kv : Nat × List Byte) (hmem : kv ∈ args) :
    sliceRow (rowSpan (.bytes (buildRow sizes args N)) M)
      (offset_in sizes kv.1 (asTypeSet (args.map Prod.fst))) (sizes.getD kv.1 0) =
    kv.2.map some := by
  obtain ⟨hnd, hargs, hW⟩ := hwf
  have hlen : kv.2.length = sizes.getD kv.1 0 := (hargs kv hmem).2
  apply List.ext_getElem?
  intro j
  rcases Nat.lt_or_ge j (sizes.getD kv.1 0) with hj | hj
  · rw [sliceRow_getElem? _ _ _ _ hj, rowSpan_getD]
    have hjv : j < kv.2.length := by omega
    have hb : (asTypeSet (args.map Prod.fst)).testBit kv.1 = true :=
      testBit_asTypeSet_of_mem (List.mem_map_of_mem _ hmem)
    have hfit : offset_in sizes kv.1 (asTypeSet (args.map Prod.fst)) + kv.2.length ≤ M := by
      have := offset_in_lt_maskWidth sizes (asTypeSet (args.map Prod.fst))
        (hargs kv hmem).1 hb
      omega
    have hlt : offset_in sizes kv.1 (asTypeSet (args.map Prod.fst)) + j < M := by omega
    rw [if_pos hlt]
    simp only [slotBytes]
    rw [List.getD_eq_getElem?_getD,
      buildRow_getElem?_arg sizes args N ⟨hnd, hargs, hW⟩ kv hmem hjv]
    rw [List.getElem?_map, List.getElem?_eq_getElem hjv]
    simp [List.getD_eq_getElem?_getD, List.getElem?_eq_getElem hjv]
  · rw [List.getElem?_eq_none (by rw [sliceRow_length]; omega),
      List.getElem?_eq_none (by rw [List.length_map]; omega)]

/-! ## Hive allocation: characterization and insert-only invariant -/

theorem hiveCreateAt_fst (ts : Nat) (info : Nat × Nat) (chunks : List ChunkM)
    (r : Nat × Nat) (h' : HiveM)
    (hc : hiveCreateAt ts info chunks = some (r, h')) : r = info := by
  unfold hiveCreateAt at hc
  rcases hx : chunks[info.1]? with _ | c <;> rw [hx] at hc
  · simp at hc
  · dsimp only at hc
    rcases hy : chunkCreate c info.2 with _ | p <;> rw [hy] at hc
    · simp at hc
    · obtain ⟨p1, p2⟩ := p
      dsimp only at hc
      simp at hc
      exact hc.1.symm

theorem hiveCreate_pops_head (h : HiveM) (i : Nat × Nat) (r : (Nat × Nat)) (h' : HiveM)
    (hnf : h.nextFree = some i) (hc : hiveCreate h = some (r, h')) : r = i := by
  unfold hiveCreate at hc
  rw [hnf] at hc
  exact hiveCreateAt_fst _ _ _ _ _ hc

theorem hiveCreate_appends_chunk (h : HiveM) (hnf : h.nextFree = none) :
    ∃ h', hiveCreate h = some ((h.chunks.length, 0), h') ∧
      h'.chunks.length = h.chunks.length + 1 ∧
      h'.nextFree = some (h.chunks.length, 1) ∧
      h'.chunks = h.chunks ++ [⟨1, fun _ => .uninit⟩] ∧
      h'.tinfoSize = h.tinfoSize := by
  have hget : (h.chunks ++ [freshChunk])[h.chunks.length]? = some freshChunk :=
    List.getElem?_concat_length _ _
  have hcc : chunkCreate freshChunk 0 = some (some 1, ⟨1, fun _ => .uninit⟩) := by
    unfold chunkCreate freshChunk
    norm_num [chunkCap]
  have hset : (h.chunks ++ [freshChunk]).set h.chunks.length
      (⟨1, fun _ => .uninit⟩ : ChunkM) = h.chunks ++ [⟨1, fun _ => .uninit⟩] := by
    rw [List.set_append_right _ _ (le_refl _)]
    simp
  have hc : hiveCreate h = some ((h.chunks.length, 0),
      ⟨h.chunks ++ [⟨1, fun _ => .uninit⟩], some (h.chunks.length, 1), h.tinfoSize⟩) := by
    unfold hiveCreate
    rw [hnf]
    unfold hiveCreateAt
    dsimp only
    rw [hget]
    dsimp only
    rw [hcc]
    dsimp only
    rw [hset]
    rfl
  refine ⟨_, hc, by simp, rfl, rfl, rfl⟩

theorem chunkRows_write_next (c : ChunkM) (sv : SlotVal) :
    chunkRows (chunkWrite ⟨c.size + 1, c.slots⟩ c.size sv) = chunkRows c ++ [sv] := by
  unfold chunkRows chunkWrite
  simp only
  rw [List.range_succ, List.map_append]
  congr 1
  · apply List.map_congr_left
    intro j hj
    have : j ≠ c.size := Nat.ne_of_lt (List.mem_range.mp hj)
    simp [this]
  · simp

theorem flatten_map_set_last (l : List ChunkM) (c c' : ChunkM) (sv : SlotVal)
    (hlast : l.getLast? = some c) (hrows : chunkRows c' = chunkRows c ++ [sv]) :
    ((l.set (l.length - 1) c').map chunkRows).flatten =
      (l.map chunkRows).flatten ++ [sv] := by
  induction l with
  | nil => simp at hlast
  | cons hd t ih =>
    cases t with
    | nil =>
      simp at hlast
      subst hlast
      simp [hrows]
    | cons hd2 t2 =>
      have hlast' : (hd2 :: t2).getLast? = some c := by
        rw [← hlast]; exact (List.getLast?_cons_cons ..).symm
      have hlen : (hd :: hd2 :: t2).length - 1 = ((hd2 :: t2).length - 1) + 1 := by
        simp
      rw [hlen]
      simp only [List.set_cons_succ, List.map_cons, List.flatten_cons]
      rw [ih hlast']
      simp

/-- Allocation + payload write on an insert-only well-formed hive: it
succeeds, the new row list is the old one plus the written row, previously
live slots are untouched, and the returned index is the popped free-list
head (= next unused slot of the last chunk) or slot 0 of a freshly
appended chunk. -/
theorem hive_insert_spec (h : HiveM) (sv : SlotVal) (hwf : HiveWF h) :
    ∃ r h', hiveCreate h = some (r, h') ∧
      (let h2 := writeSlot h' r sv
       HiveWF h2 ∧ h2.tinfoSize = h.tinfoSize ∧ h2.chunks ≠ [] ∧
       (∀ ci si c, h.chunks[ci]? = some c → si < c.size →
         slotAt h2 ci si = some (c.slots si)) ∧
       slotAt h2 r.1 r.2 = some sv ∧
       (∃ c', h2.chunks[r.1]? = some c' ∧ r.2 < c'.size) ∧
       hiveRows h2 = hiveRows h ++ [sv]) ∧
      (match h.nextFree with
       | some i => r = i
       | none => r = (h.chunks.length, 0)) := by
  obtain ⟨hfull, hsz, hnf⟩ := hwf
  rcases hnfc : h.nextFree with _ | i
  · -- free list empty: append a fresh chunk, use its slot 0
    obtain ⟨h', hc, hlen, hnf', hchunks, hti⟩ := hiveCreate_appends_chunk h hnfc
    refine ⟨(h.chunks.length, 0), h', hc, ?_, by simp⟩
    have hwchunks : (writeSlot h' (h.chunks.length, 0) sv).chunks =
        h.chunks ++ [⟨1, fun j => if j = 0 then sv else .uninit⟩] := by
      unfold writeSlot
      rw [hchunks]
      simp only
      rw [List.getElem?_concat_length]
      simp only
      rw [List.set_append_right _ _ (le_refl _)]
      simp [chunkWrite]
    have hwnf : (writeSlot h' (h.chunks.length, 0) sv).nextFree = some (h.chunks.length, 1) := by
      unfold writeSlot
      rw [hchunks, List.getElem?_concat_length]
      simpa using hnf'
    have hwti : (writeSlot h' (h.chunks.length, 0) sv).tinfoSize = h.tinfoSize := by
      unfold writeSlot
      rw [hchunks, List.getElem?_concat_length]
      simpa using hti
    constructor
    · -- HiveWF of the written state
      rw [hnfc] at hnf
      refine ⟨?_, ?_, ?_⟩
      · intro i c hi hget
        rw [hwchunks] at hi hget
        simp at hi
        rcases Nat.lt_or_ge (i + 1) h.chunks.length with hlt2 | hge2
        · rw [List.getElem?_append_left (by omega)] at hget
          exact hfull i c hlt2 hget
        · -- i is the last of the old chunks: it must be full
          rcases hnf with hemp | ⟨clast, hclast, hcap⟩
          · rw [hemp] at hi; simp at hi
          · have hlast2 : h.chunks[i]? = some clast := by
              rw [List.getLast?_eq_getElem?] at hclast
              have heq : h.chunks.length - 1 = i := by omega
              rwa [heq] at hclast
            rw [List.getElem?_append_left hi, hlast2] at hget
            cases hget
            exact hcap
      · intro c hc
        rw [hwchunks] at hc
        rcases List.mem_append.mp hc with hmem | hmem
        · exact hsz c hmem
        · simp at hmem
          subst hmem
          constructor
          · norm_num
          · norm_num [chunkCap]
      · rw [hwnf]
        simp only
        refine ⟨by rw [hwchunks]; simp, ?_⟩
        refine ⟨⟨1, fun j => if j = 0 then sv else .uninit⟩, ?_, rfl, ?_⟩
        · rw [hwchunks]
          rw [List.getLast?_eq_getElem?]
          have : (h.chunks ++ [(⟨1, fun j => if j = 0 then sv else .uninit⟩ : ChunkM)]).length - 1
              = h.chunks.length := by simp
          rw [this, List.getElem?_concat_length]
        · norm_num [chunkCap]
    refine ⟨hwti, ?_, ?_, ?_, ?_, ?_⟩
    · rw [hwchunks]; simp
    · intro ci si c hget hsi
      unfold slotAt
      rw [hwchunks]
      have hci : ci < h.chunks.length := (List.getElem?_eq_some_iff.mp hget).1
      rw [List.getElem?_append_left hci, hget]
      rfl
    · unfold slotAt
      rw [hwchunks, List.getElem?_concat_length]
      simp
    · refine ⟨⟨1, fun j => if j = 0 then sv else .uninit⟩, ?_, by norm_num⟩
      rw [hwchunks, List.getElem?_concat_length]
    · unfold hiveRows
      rw [hwchunks, List.map_append, List.flatten_append]
      congr 1
  · -- free list nonempty: the returned slot is its head
    rw [hnfc] at hnf
    obtain ⟨hi1, clast, hclast, hi2, hcaplt⟩ := hnf
    have hne : h.chunks ≠ [] := by
      intro hemp
      rw [hemp] at hclast
      simp at hclast
    have hlastidx : h.chunks[h.chunks.length - 1]? = some clast := by
      rw [← List.getLast?_eq_getElem?]; exact hclast
    have hgetc : h.chunks[i.1]? = some clast := by
      have heq : i.1 = h.chunks.length - 1 := by omega
      rwa [heq]
    have hcc : chunkCreate clast i.2 =
        some ((if clast.size + 1 = chunkCap then none else some (clast.size + 1)),
          ⟨clast.size + 1, clast.slots⟩) := by
      unfold chunkCreate
      rw [if_neg (by omega)]
      by_cases hful : clast.size + 1 = chunkCap
      · rw [if_pos hful, if_pos hful]
      · rw [if_neg hful, if_neg hful, if_pos (by omega)]
    have hc : hiveCreate h = some (i,
        ⟨h.chunks.set i.1 ⟨clast.size + 1, clast.slots⟩,
         (if clast.size + 1 = chunkCap then none
          else some (clast.size + 1)).map (fun n => (i.1, n)), h.tinfoSize⟩) := by
      unfold hiveCreate
      rw [hnfc]
      unfold hiveCreateAt
      dsimp only
      rw [hgetc]
      dsimp only
      rw [hcc]
    refine ⟨i, _, hc, ?_, by simp⟩
    have hilen : i.1 < h.chunks.length := by omega
    have hsetlen : (h.chunks.set i.1 (⟨clast.size + 1, clast.slots⟩ : ChunkM)).length
        = h.chunks.length := List.length_set ..
    have hwchunks : (writeSlot ⟨h.chunks.set i.1 ⟨clast.size + 1, clast.slots⟩,
        (if clast.size + 1 = chunkCap then none
         else some (clast.size + 1)).map (fun n => (i.1, n)), h.tinfoSize⟩ i sv).chunks =
        h.chunks.set i.1 (chunkWrite ⟨clast.size + 1, clast.slots⟩ i.2 sv) := by
      unfold writeSlot
      dsimp only
      rw [List.getElem?_set_self hilen]
      dsimp only
      rw [List.set_set]
    have hwnf : (writeSlot ⟨h.chunks.set i.1 ⟨clast.size + 1, clast.slots⟩,
        (if clast.size + 1 = chunkCap then none
         else some (clast.size + 1)).map (fun n => (i.1, n)), h.tinfoSize⟩ i sv).nextFree =
        (if clast.size + 1 = chunkCap then none
         else some (clast.size + 1)).map (fun n => (i.1, n)) := by
      unfold writeSlot
      dsimp only
      rw [List.getElem?_set_self hilen]
    have hwti : (writeSlot ⟨h.chunks.set i.1 ⟨clast.size + 1, clast.slots⟩,
        (if clast.size + 1 = chunkCap then none
         else some (clast.size + 1)).map (fun n => (i.1, n)), h.tinfoSize⟩ i sv).tinfoSize
        = h.tinfoSize := by
      unfold writeSlot
      dsimp only
      rw [List.getElem?_set_self hilen]
    have hclen : (h.chunks.set i.1 (chunkWrite ⟨clast.size + 1, clast.slots⟩ i.2 sv)).length
        = h.chunks.length := List.length_set ..
    have hgetw : ∀ j, j ≠ i.1 →
        (h.chunks.set i.1 (chunkWrite ⟨clast.size + 1, clast.slots⟩ i.2 sv))[j]? =
          h.chunks[j]? := fun j hj => List.getElem?_set_ne (fun hh => hj hh.symm)
    have hgetwi : (h.chunks.set i.1 (chunkWrite ⟨clast.size + 1, clast.slots⟩ i.2 sv))[i.1]? =
        some (chunkWrite ⟨clast.size + 1, clast.slots⟩ i.2 sv) :=
      List.getElem?_set_self hilen
    constructor
    · -- HiveWF of the written state
      refine ⟨?_, ?_, ?_⟩
      · intro j c hj hget
        rw [hwchunks] at hj hget
        rw [hclen] at hj
        rcases eq_or_ne j i.1 with hji | hji
        · subst hji
          rw [hgetwi] at hget
          cases hget
          omega
        · rw [hgetw j hji] at hget
          exact hfull j c hj hget
      · intro c hc
        rw [hwchunks] at hc
        rcases List.mem_or_eq_of_mem_set hc with hmem | heq
        · exact hsz c hmem
        · subst heq
          simp only [chunkWrite]
          constructor
          · omega
          · omega
      · by_cases hful : clast.size + 1 = chunkCap
        · rw [if_pos hful] at hwchunks hwnf ⊢
          rw [hwnf]
          simp only [Option.map_none'] at hwchunks ⊢
          right
          refine ⟨chunkWrite ⟨clast.size + 1, clast.slots⟩ i.2 sv, ?_, ?_⟩
          · rw [List.getLast?_eq_getElem?, hwchunks, hclen]
            have heq : h.chunks.length - 1 = i.1 := by omega
            rw [heq]
            exact hgetwi
          · simp only [chunkWrite]
            omega
        · rw [if_neg hful] at hwchunks hwnf ⊢
          rw [hwnf]
          simp only [Option.map_some'] at hwchunks ⊢
          rw [hwchunks, hclen]
          refine ⟨by omega, ?_⟩
          refine ⟨chunkWrite ⟨clast.size + 1, clast.slots⟩ i.2 sv, ?_, by simp [chunkWrite], ?_⟩
          · rw [List.getLast?_eq_getElem?, hclen]
            have heq : h.chunks.length - 1 = i.1 := by omega
            rw [heq]
            exact hgetwi
          · simp only [chunkWrite]
            omega
    refine ⟨hwti, ?_, ?_, ?_, ?_, ?_⟩
    · rw [hwchunks]
      intro hcon
      have hlen0 := congrArg List.length hcon
      rw [hclen] at hlen0
      simp at hlen0
      exact hne hlen0
    · intro ci si c hget hsi
      unfold slotAt
      rw [hwchunks]
      rcases eq_or_ne ci i.1 with hci | hci
      · subst hci
        rw [hgetwi]
        have hcc2 : c = clast := by rw [hget] at hgetc; cases hgetc; rfl
        subst hcc2
        simp only [chunkWrite, Option.map_some]
        have hsine : si ≠ i.2 := by omega
        simp [hsine]
      · rw [hgetw ci hci, hget]
        rfl
    · unfold slotAt
      rw [hwchunks, hgetwi]
      simp [chunkWrite]
    · refine ⟨chunkWrite ⟨clast.size + 1, clast.slots⟩ i.2 sv, ?_, ?_⟩
      · rw [hwchunks]; exact hgetwi
      · simp only [chunkWrite]; omega
    · unfold hiveRows
      rw [hwchunks]
      have hseteq : h.chunks.set i.1 (chunkWrite ⟨clast.size + 1, clast.slots⟩ i.2 sv)
          = h.chunks.set (h.chunks.length - 1)
              (chunkWrite ⟨clast.size + 1, clast.slots⟩ i.2 sv) := by
        congr 1
        omega
      rw [hseteq]
      apply flatten_map_set_last _ clast _ sv hclast
      have heq : i.2 = clast.size := hi2
      rw [heq]
      exact chunkRows_write_next clast sv

/-! ## The effect of one world insert -/

theorem findMaskIdx_none_iff (arr : List ArchetypeM) (types : Nat) :
    findMaskIdx arr types = none ↔ ∀ a ∈ arr, a.types ≠ types := by
  induction arr with
  | nil => simp [findMaskIdx]
  | cons a t ih =>
    unfold findMaskIdx
    by_cases h : a.types = types
    · simp [h]
    · simp [h, Option.map_eq_none', ih]

theorem findMaskIdx_some (arr : List ArchetypeM) (types : Nat) (i : Nat)
    (h : findMaskIdx arr types = some i) :
    ∃ a, arr[i]? = some a ∧ a.types = types := by
  induction arr generalizing i with
  | nil => simp [findMaskIdx] at h
  | cons hd t ih =>
    unfold findMaskIdx at h
    by_cases heq : hd.types = types
    · rw [if_pos heq] at h
      cases h
      exact ⟨hd, by simp, heq⟩
    · rw [if_neg heq] at h
      rcases Option.map_eq_some'.mp h with ⟨j, hj, hji⟩
      obtain ⟨a, ha, hat⟩ := ih j hj
      refine ⟨a, ?_, hat⟩
      rw [← hji]
      simpa using ha

theorem findMaskIdx_set (arr : List ArchetypeM) (types : Nat) (i : Nat)
    (a a' : ArchetypeM) (hget : arr[i]? = some a) (hty : a'.types = a.types) :
    findMaskIdx (arr.set i a') types = findMaskIdx arr types := by
  induction arr generalizing i with
  | nil => simp at hget
  | cons hd t ih =>
    cases i with
    | zero =>
      simp at hget
      subst hget
      rw [List.set_cons_zero]
      unfold findMaskIdx
      rw [hty]
    | succ n =>
      simp at hget
      rw [List.set_cons_succ]
      unfold findMaskIdx
      rw [ih n hget]

theorem findMaskIdx_append_none (arr : List ArchetypeM) (types : Nat)
    (b : ArchetypeM) (h : findMaskIdx arr types = none) :
    findMaskIdx (arr ++ [b]) types =
      if b.types = types then some arr.length else none := by
  induction arr with
  | nil =>
    simp only [List.nil_append, List.length_nil]
    unfold findMaskIdx
    by_cases hb : b.types = types
    · rw [if_pos hb, if_pos hb]
    · rw [if_neg hb, if_neg hb]
      rfl
  | cons hd t ih =>
    rw [List.cons_append]
    unfold findMaskIdx at h ⊢
    by_cases heq : hd.types = types
    · rw [if_pos heq] at h
      cases h
    · rw [if_neg heq] at h ⊢
      have ht : findMaskIdx t types = none := Option.map_eq_none'.mp h
      rw [ih ht]
      by_cases hb : b.types = types
      · rw [if_pos hb, if_pos hb]
        simp
      · rw [if_neg hb, if_neg hb]
        rfl

/-- `HiveWF` holds of a freshly constructed hive. -/
theorem hiveInit_wf (sz : Nat) : HiveWF (hiveInit sz) := by
  refine ⟨?_, ?_, ?_⟩
  · intro i c hi hget
    simp [hiveInit] at hget
  · intro c hc
    simp [hiveInit] at hc
  · left
    rfl

/-- What one `basic_world::insert` call does, on a well-formed world: if an
archetype with the call's mask exists, the handle points into it, no
archetype is added, and only that archetype gains the built row (its other
rows and all other archetypes untouched); otherwise exactly one archetype
is appended, holding just the built row. -/
theorem worldInsert_spec (w : WorldM) (args : List (Nat × List Byte)) (N : Nat)
    (hnd : Handle) (w' : WorldM) (hwf : WorldWF w)
    (hins : worldInsert w args N = some (hnd, w')) :
    WorldWF w' ∧ w'.sizes = w.sizes ∧ hnd.generation = 0 ∧
    (match findMaskIdx w.archetypes (asTypeSet (args.map Prod.fst)) with
     | some i =>
       hnd.archetype = i ∧
       w'.archetypes.length = w.archetypes.length ∧
       (∀ j, j ≠ i → w'.archetypes[j]? = w.archetypes[j]?) ∧
       (∃ a a', w.archetypes[i]? = some a ∧ w'.archetypes[i]? = some a' ∧
         a'.types = a.types ∧ a.types = asTypeSet (args.map Prod.fst) ∧
         a'.tinfo = a.tinfo ∧ a'.data.tinfoSize = a.data.tinfoSize ∧
         hiveRows a'.data = hiveRows a.data ++ [.bytes (buildRow w.sizes args N)] ∧
         (∀ ci si c, a.data.chunks[ci]? = some c → si < c.size →
           slotAt a'.data ci si = some (c.slots si)) ∧
         slotAt a'.data hnd.idx.1 hnd.idx.2 = some (.bytes (buildRow w.sizes args N)) ∧
         (∃ c', a'.data.chunks[hnd.idx.1]? = some c' ∧ hnd.idx.2 < c'.size))
     | none =>
       hnd.archetype = w.archetypes.length ∧
       (∃ a', w'.archetypes = w.archetypes ++ [a'] ∧
         a'.types = asTypeSet (args.map Prod.fst) ∧ a'.tinfo = N ∧
         a'.data.tinfoSize = N ∧
         hiveRows a'.data = [.bytes (buildRow w.sizes args N)] ∧
         slotAt a'.data hnd.idx.1 hnd.idx.2 = some (.bytes (buildRow w.sizes args N)) ∧
         (∃ c', a'.data.chunks[hnd.idx.1]? = some c' ∧ hnd.idx.2 < c'.size))) := by
  rcases hfind : findMaskIdx w.archetypes (asTypeSet (args.map Prod.fst)) with _ | i
  · -- no archetype with this mask: one is appended
    have hfi : findOrInsertArchetypeIdx w.archetypes (asTypeSet (args.map Prod.fst)) N =
        (w.archetypes.length, w.archetypes ++ [archetypeInit (asTypeSet (args.map Prod.fst)) N]) := by
      unfold findOrInsertArchetypeIdx
      rw [hfind]
    unfold worldInsert at hins
    rw [hfi] at hins
    unfold worldInsertAt at hins
    dsimp only at hins
    rw [List.getElem?_concat_length] at hins
    dsimp only at hins
    obtain ⟨r, h2, hcreate, ⟨hwf2, hti2, hne2, hold2, hset2, hlive2, hrows2⟩, hnfcase⟩ :=
      hive_insert_spec (hiveInit N) (.bytes (buildRow w.sizes args N)) (hiveInit_wf N)
    unfold archetypeInsert at hins
    dsimp only [archetypeInit] at hins ⊢
    rw [hcreate] at hins
    dsimp only at hins
    by_cases hfit : (buildRow w.sizes args N).length ≤ chunkStride (hiveInit N).tinfoSize
    swap
    · rw [if_neg hfit] at hins
      cases hins
    rw [if_pos hfit] at hins
    dsimp only at hins
    rw [Option.some_inj] at hins
    simp only [Prod.mk.injEq] at hins
    obtain ⟨hhnd, hw'⟩ := hins
    have hset_eq : (w.archetypes ++
        [(⟨asTypeSet (args.map Prod.fst), N, hiveInit N⟩ : ArchetypeM)]).set
        w.archetypes.length
        (⟨asTypeSet (args.map Prod.fst), N,
          writeSlot h2 r (.bytes (buildRow w.sizes args N))⟩ : ArchetypeM) =
        w.archetypes ++ [⟨asTypeSet (args.map Prod.fst), N,
          writeSlot h2 r (.bytes (buildRow w.sizes args N))⟩] := by
      rw [List.set_append_right _ _ (le_refl _)]
      simp
    refine ⟨?_, ?_, ?_, ?_⟩
    · -- WorldWF of the new world
      intro a ha
      rw [← hw'] at ha
      dsimp only at ha
      rw [hset_eq] at ha
      rcases List.mem_append.mp ha with hmem | hmem
      · exact hwf a hmem
      · simp at hmem
        subst hmem
        exact ⟨hwf2, hne2⟩
    · rw [← hw']
    · rw [← hhnd]
    · refine ⟨by rw [← hhnd], ⟨⟨asTypeSet (args.map Prod.fst), N,
        writeSlot h2 r (.bytes (buildRow w.sizes args N))⟩, ?_, rfl, rfl, ?_, ?_, ?_, ?_⟩⟩
      · rw [← hw']
        dsimp only
        rw [hset_eq]
      · dsimp only
        rw [hti2]
        rfl
      · dsimp only
        rw [hrows2]
        rfl
      · rw [← hhnd]
        dsimp only
        exact hset2
      · rw [← hhnd]
        dsimp only
        exact hlive2
  · -- an archetype with this mask exists at index i
    obtain ⟨a, hgeta, htypesa⟩ := findMaskIdx_some _ _ _ hfind
    have hfi : findOrInsertArchetypeIdx w.archetypes (asTypeSet (args.map Prod.fst)) N =
        (i, w.archetypes) := by
      unfold findOrInsertArchetypeIdx
      rw [hfind]
    unfold worldInsert at hins
    rw [hfi] at hins
    unfold worldInsertAt at hins
    dsimp only at hins
    rw [hgeta] at hins
    dsimp only at hins
    have hawf : HiveWF a.data := (hwf a (List.getElem?_mem hgeta)).1
    obtain ⟨r, h2, hcreate, ⟨hwf2, hti2, hne2, hold2, hset2, hlive2, hrows2⟩, hnfcase⟩ :=
      hive_insert_spec a.data (.bytes (buildRow w.sizes args N)) hawf
    unfold archetypeInsert at hins
    rw [hcreate] at hins
    dsimp only at hins
    by_cases hfit : (buildRow w.sizes args N).length ≤ chunkStride a.data.tinfoSize
    swap
    · rw [if_neg hfit] at hins
      cases hins
    rw [if_pos hfit] at hins
    dsimp only at hins
    rw [Option.some_inj] at hins
    simp only [Prod.mk.injEq] at hins
    obtain ⟨hhnd, hw'⟩ := hins
    have hilen : i < w.archetypes.length := (List.getElem?_eq_some_iff.mp hgeta).1
    refine ⟨?_, ?_, ?_, ?_⟩
    · intro b hb
      rw [← hw'] at hb
      dsimp only at hb
      rcases List.mem_or_eq_of_mem_set hb with hmem | heq
      · exact hwf b hmem
      · subst heq
        exact ⟨hwf2, hne2⟩
    · rw [← hw']
    · rw [← hhnd]
    · refine ⟨by rw [← hhnd], ?_, ?_, ?_⟩
      · rw [← hw']
        dsimp only
        exact List.length_set ..
      · intro j hj
        rw [← hw']
        dsimp only
        exact List.getElem?_set_ne (fun hh => hj hh.symm)
      · refine ⟨a, ⟨a.types, a.tinfo, writeSlot h2 r (.bytes (buildRow w.sizes args N))⟩,
          hgeta, ?_, rfl, htypesa, rfl, ?_, ?_, ?_, ?_, ?_⟩
        · rw [← hw']
          dsimp only
          exact List.getElem?_set_self hilen
        · rw [hti2]
        · rw [hrows2]
        · exact hold2
        · rw [← hhnd]
          dsimp only
          exact hset2
        · rw [← hhnd]
          dsimp only
          exact hlive2

theorem queryRun_of_runTo {w : WorldM} {ks : List Nat} {q : QueryIt} {tr : List SlotVal}
    (h : RunTo w ks q tr) : ∀ fuel, tr.length < fuel → queryRun w ks fuel q = tr := by
  induction h with
  | halt q hq =>
    intro fuel hf
    cases fuel with
    | zero => omega
    | succ m =>
      unfold queryRun
      simp [hq]
  | step q r rest hne hd hnext ih =>
    intro fuel hf
    cases fuel with
    | zero => omega
    | succ m =>
      unfold queryRun
      simp only [hne, Bool.false_eq_true, if_false]
      rw [hd, ih m (by simp at hf; omega)]

theorem hiveItInc_mid (chunks : List ChunkM) (ci clen si sz : Nat) (h : si + 1 ≠ sz) :
    hiveItInc chunks ⟨ci, clen, some si, some sz⟩ = ⟨ci, clen, some (si + 1), some sz⟩ := by
  unfold hiveItInc
  dsimp only [Option.map_some']
  rw [if_pos (by simpa using h)]

theorem hiveItInc_endChunk (chunks : List ChunkM) (ci clen si sz : Nat)
    (h : si + 1 = sz) :
    hiveItInc chunks ⟨ci, clen, some si, some sz⟩ =
      nextChunk chunks ⟨ci + 1, clen, some sz, some sz⟩ := by
  unfold hiveItInc
  dsimp only [Option.map_some']
  rw [h, if_neg (by simp)]

theorem nextChunk_stop (chunks : List ChunkM) (it : HiveIt) (h : it.chunkCur = it.chunkEnd) :
    nextChunk chunks it = hiveItSentinel it.chunkEnd := by
  unfold nextChunk
  rw [if_pos h]

theorem nextChunk_enter (chunks : List ChunkM) (it : HiveIt) (c : ChunkM)
    (h : ¬ it.chunkCur = it.chunkEnd) (hc : chunks[it.chunkCur]? = some c) :
    nextChunk chunks it = ⟨it.chunkCur, it.chunkEnd, some 0, some c.size⟩ := by
  unfold nextChunk
  rw [if_neg h, hc]

theorem queryEq_atState (ks : List Nat) (R k len clen : Nat) (offs : List Nat)
    (ci si sz : Nat) :
    queryEq (atState R k len clen offs ci si sz)
      (queryEnd (atState R k len clen offs ci si sz).types
        (atState R k len clen offs ci si sz).archEnd ks.length) = false := by
  simp [queryEq, atState, queryEnd, hiveItEq, hiveItDefault]

theorem queryEq_end_end (ks : List Nat) (R len : Nat) :
    queryEq (queryEnd R len ks.length)
      (queryEnd (queryEnd R len ks.length).types
        (queryEnd R len ks.length).archEnd ks.length) = true := by
  simp [queryEq, queryEnd, hiveItEq, hiveItDefault]

theorem chunksAt_eq (w : WorldM) (k : Nat) (a : ArchetypeM)
    (hk : w.archetypes[k]? = some a) : chunksAt w k = a.data.chunks := by
  unfold chunksAt
  rw [hk]

theorem deref_atState (w : WorldM) (R k len : Nat) (offs : List Nat)
    (ci si sz : Nat) (a : ArchetypeM) (c : ChunkM)
    (hk : w.archetypes[k]? = some a) (hc : a.data.chunks[ci]? = some c) :
    hiveItDeref (chunksAt w (atState R k len a.data.chunks.length offs ci si sz).archCur)
      (atState R k len a.data.chunks.length offs ci si sz).hCur = some (c.slots si) := by
  unfold atState hiveItDeref
  dsimp only
  rw [chunksAt_eq w k a hk, hc]

theorem hiveItEq_mid_sentinel (ci clen si sz n : Nat) :
    hiveItEq ⟨ci, clen, some si, some sz⟩ (hiveItSentinel n) = false := by
  simp [hiveItEq, hiveItSentinel]

theorem hiveItEq_sentinel_self (n : Nat) :
    hiveItEq (hiveItSentinel n) (hiveItSentinel n) = true := by
  simp [hiveItEq, hiveItSentinel]

theorem queryInc_atState_mid (w : WorldM) (ks : List Nat) (R k len : Nat)
    (offs : List Nat) (ci si : Nat) (a : ArchetypeM) (c : ChunkM)
    (hk : w.archetypes[k]? = some a) (hc : a.data.chunks[ci]? = some c)
    (hne : si + 1 ≠ c.size) :
    queryInc w ks (atState R k len a.data.chunks.length offs ci si c.size) =
      atState R k len a.data.chunks.length offs ci (si + 1) c.size := by
  unfold queryInc atState
  dsimp only
  rw [chunksAt_eq w k a hk, hiveItInc_mid _ _ _ _ _ hne,
    hiveItEq_mid_sentinel]
  rw [if_neg (by simp)]

theorem queryInc_atState_nextChunk (w : WorldM) (ks : List Nat) (R k len : Nat)
    (offs : List Nat) (ci si : Nat) (a : ArchetypeM) (c c' : ChunkM)
    (hk : w.archetypes[k]? = some a) (hc : a.data.chunks[ci]? = some c)
    (hlast : si + 1 = c.size) (hc' : a.data.chunks[ci + 1]? = some c') :
    queryInc w ks (atState R k len a.data.chunks.length offs ci si c.size) =
      atState R k len a.data.chunks.length offs (ci + 1) 0 c'.size := by
  have hcilt : ci + 1 < a.data.chunks.length := (List.getElem?_eq_some_iff.mp hc').1
  unfold queryInc atState
  dsimp only
  rw [chunksAt_eq w k a hk, hiveItInc_endChunk _ _ _ _ _ hlast,
    nextChunk_enter _ _ c' (by dsimp only; omega) (by dsimp only; exact hc'),
    hiveItEq_mid_sentinel]
  rw [if_neg (by simp)]

theorem queryInc_atState_nextArch (w : WorldM) (ks : List Nat) (R k len : Nat)
    (offs : List Nat) (ci si : Nat) (a : ArchetypeM) (c : ChunkM)
    (hk : w.archetypes[k]? = some a) (hc : a.data.chunks[ci]? = some c)
    (hlast : si + 1 = c.size) (hci : ci + 1 = a.data.chunks.length) :
    queryInc w ks (atState R k len a.data.chunks.length offs ci si c.size) =
      findNextArchetype w ks R (k + 1) len := by
  unfold queryInc atState
  dsimp only
  rw [chunksAt_eq w k a hk, hiveItInc_endChunk _ _ _ _ _ hlast,
    nextChunk_stop _ _ (by dsimp only; exact hci)]
  dsimp only
  rw [hiveItEq_sentinel_self]
  rw [if_pos rfl]

theorem findNextAux_match (w : WorldM) (ks : List Nat) (R len k fuel : Nat)
    (a : ArchetypeM) (hk : w.archetypes[k]? = some a) (hm : a.types &&& R = R) :
    findNextAux w ks R len k (fuel + 1) =
      ⟨R, k, len, archetypeBegin a, archetypeEnd a,
        ks.map (fun t => offset_in w.sizes t a.types)⟩ := by
  unfold findNextAux
  rw [hk]
  dsimp only
  rw [if_pos hm]

theorem findNextAux_skip (w : WorldM) (ks : List Nat) (R len k fuel : Nat)
    (a : ArchetypeM) (hk : w.archetypes[k]? = some a) (hm : ¬ a.types &&& R = R) :
    findNextAux w ks R len k (fuel + 1) = findNextAux w ks R len (k + 1) fuel := by
  conv_lhs => unfold findNextAux
  rw [hk]
  dsimp only
  rw [if_neg hm]

theorem findNextArchetype_stop (w : WorldM) (ks : List Nat) (R len k : Nat)
    (h : len ≤ k) : findNextArchetype w ks R k len = queryEnd R len ks.length := by
  unfold findNextArchetype
  rw [Nat.sub_eq_zero_of_le h]
  rfl

theorem archetypeBegin_eq (a : ArchetypeM) (c0 : ChunkM)
    (hc0 : a.data.chunks[0]? = some c0) :
    archetypeBegin a = ⟨0, a.data.chunks.length, some 0, some c0.size⟩ := by
  have hlt : 0 < a.data.chunks.length := (List.getElem?_eq_some_iff.mp hc0).1
  unfold archetypeBegin hiveEnd hiveItOfHive
  rw [nextChunk_enter _ _ c0 (by dsimp only; omega) (by dsimp only; exact hc0)]

theorem runTo_slots (w : WorldM) (ks : List Nat) (R k len : Nat) (offs : List Nat)
    (a : ArchetypeM) (hk : w.archetypes[k]? = some a) :
    ∀ (m : Nat), ∀ (si ci : Nat) (c : ChunkM), a.data.chunks[ci]? = some c →
      si + (m + 1) = c.size →
      ∀ (qnext : QueryIt) (rest : List SlotVal),
      ((ci + 1 = a.data.chunks.length ∧ qnext = findNextArchetype w ks R (k + 1) len) ∨
       (∃ c', a.data.chunks[ci + 1]? = some c' ∧
          qnext = atState R k len a.data.chunks.length offs (ci + 1) 0 c'.size)) →
      RunTo w ks qnext rest →
      RunTo w ks (atState R k len a.data.chunks.length offs ci si c.size)
        (((List.range' si (m + 1)).map c.slots) ++ rest) := by
  intro m
  induction m with
  | zero =>
    intro si ci c hc hsz qnext rest hqnext hcont
    rw [List.range'_succ]
    simp only [List.range'_zero, List.map_cons, List.map_nil, List.cons_append,
      List.nil_append]
    apply RunTo.step
    · exact queryEq_atState ks R k len _ offs ci si c.size
    · exact deref_atState w R k len offs ci si c.size a c hk hc
    · rcases hqnext with ⟨hci, hq⟩ | ⟨c', hc', hq⟩
      · rw [queryInc_atState_nextArch w ks R k len offs ci si a c hk hc (by omega) hci,
          ← hq]
        exact hcont
      · rw [queryInc_atState_nextChunk w ks R k len offs ci si a c c' hk hc (by omega) hc',
          ← hq]
        exact hcont
  | succ n ih =>
    intro si ci c hc hsz qnext rest hqnext hcont
    rw [List.range'_succ]
    simp only [List.map_cons, List.cons_append]
    apply RunTo.step
    · exact queryEq_atState ks R k len _ offs ci si c.size
    · exact deref_atState w R k len offs ci si c.size a c hk hc
    · rw [queryInc_atState_mid w ks R k len offs ci si a c hk hc (by omega)]
      exact ih (si + 1) ci c hc (by omega) qnext rest hqnext hcont

theorem runTo_chunks (w : WorldM) (ks : List Nat) (R k len : Nat) (offs : List Nat)
    (a : ArchetypeM) (hk : w.archetypes[k]? = some a)
    (hpos : ∀ c ∈ a.data.chunks, 0 < c.size) :
    ∀ (lc : List ChunkM) (ci : Nat), a.data.chunks.drop ci = lc →
      ∀ (rest : List SlotVal), RunTo w ks (findNextArchetype w ks R (k + 1) len) rest →
      RunTo w ks
        (match a.data.chunks[ci]? with
         | some c => atState R k len a.data.chunks.length offs ci 0 c.size
         | none => findNextArchetype w ks R (k + 1) len)
        (((lc.map chunkRows).flatten) ++ rest) := by
  intro lc
  induction lc with
  | nil =>
    intro ci hdrop rest hcont
    have hnone : a.data.chunks[ci]? = none := by
      rw [← List.head?_drop, hdrop]
      rfl
    rw [hnone]
    simpa using hcont
  | cons c lc' ih =>
    intro ci hdrop rest hcont
    have hc : a.data.chunks[ci]? = some c := by
      rw [← List.head?_drop, hdrop]
      rfl
    rw [hc]
    dsimp only
    have hdrop' : a.data.chunks.drop (ci + 1) = lc' := by
      have hstep := congrArg (List.drop 1) hdrop
      rw [List.drop_drop] at hstep
      simpa [Nat.add_comm] using hstep
    have hcsize : 0 < c.size := hpos c (by
      have hmem : c ∈ a.data.chunks.drop ci := by
        rw [hdrop]
        exact List.mem_cons_self ..
      exact List.drop_subset _ _ hmem)
    have hcont' := ih (ci + 1) hdrop' rest hcont
    obtain ⟨m, hm⟩ : ∃ m, 0 + (m + 1) = c.size := ⟨c.size - 1, by omega⟩
    have htrace : ((c :: lc').map chunkRows).flatten ++ rest =
        ((List.range' 0 (m + 1)).map c.slots) ++ (((lc'.map chunkRows).flatten) ++ rest) := by
      simp only [List.map_cons, List.flatten_cons, List.append_assoc]
      congr 2
      unfold chunkRows
      rw [← hm]
      simp [List.range_eq_range']
    rw [htrace]
    cases hnext : a.data.chunks[ci + 1]? with
    | some c' =>
      rw [hnext] at hcont'
      exact runTo_slots w ks R k len offs a hk m 0 ci c hc hm _ _
        (Or.inr ⟨c', hnext, rfl⟩) hcont'
    | none =>
      rw [hnext] at hcont'
      have hci1 : ci + 1 = a.data.chunks.length := by
        have hlt : ci < a.data.chunks.length := (List.getElem?_eq_some_iff.mp hc).1
        have hge : a.data.chunks.length ≤ ci + 1 := by
          by_contra hcon
          push_neg at hcon
          rw [List.getElem?_eq_none_iff] at hnext
          omega
        omega
      exact runTo_slots w ks R k len offs a hk m 0 ci c hc hm _ _
        (Or.inl ⟨hci1, rfl⟩) hcont'

theorem runTo_query (w : WorldM) (ks : List Nat) (R len : Nat)
    (hlen : len = w.archetypes.length) (hwf : WorldWF w) :
    ∀ (la : List ArchetypeM) (k : Nat), w.archetypes.drop k = la →
      RunTo w ks (findNextArchetype w ks R k len)
        (((la.filter (fun a => a.types &&& R == R)).map (fun a => hiveRows a.data)).flatten) := by
  intro la
  induction la with
  | nil =>
    intro k hdrop
    have hk : w.archetypes.length ≤ k := by
      rwa [List.drop_eq_nil_iff] at hdrop
    rw [findNextArchetype_stop w ks R len k (by omega)]
    simpa using @RunTo.halt w ks _ (queryEq_end_end ks R len)
  | cons a la' ih =>
    intro k hdrop
    have hk : w.archetypes[k]? = some a := by
      rw [← List.head?_drop, hdrop]
      rfl
    have hdrop' : w.archetypes.drop (k + 1) = la' := by
      have hstep := congrArg (List.drop 1) hdrop
      rw [List.drop_drop] at hstep
      simpa [Nat.add_comm] using hstep
    have hklt : k < w.archetypes.length := (List.getElem?_eq_some_iff.mp hk).1
    have hfuel : len - k = (len - (k + 1)) + 1 := by omega
    unfold findNextArchetype
    rw [hfuel]
    by_cases hm : a.types &&& R = R
    · rw [findNextAux_match w ks R len k _ a hk hm]
      obtain ⟨hawf, hane⟩ := hwf a (List.getElem?_mem hk)
      obtain ⟨c0, hc0⟩ : ∃ c0, a.data.chunks[0]? = some c0 := by
        cases hx : a.data.chunks[0]? with
        | some c0 => exact ⟨c0, rfl⟩
        | none =>
          rw [List.getElem?_eq_none_iff] at hx
          exact absurd (List.eq_nil_of_length_eq_zero (by omega)) hane
      rw [archetypeBegin_eq a c0 hc0]
      have hmb : (a.types &&& R == R) = true := by simpa using hm
      rw [List.filter_cons, if_pos hmb]
      simp only [List.map_cons, List.flatten_cons]
      have hpos : ∀ c ∈ a.data.chunks, 0 < c.size := fun c hc => (hawf.2.1 c hc).1
      have hrun := runTo_chunks w ks R k len
        (ks.map (fun t => offset_in w.sizes t a.types)) a hk hpos
        a.data.chunks 0 (by simp)
        (((la'.filter (fun a => a.types &&& R == R)).map (fun a => hiveRows a.data)).flatten)
        (by
          have hnext := ih (k + 1) hdrop'
          unfold findNextArchetype at hnext
          exact hnext)
      rw [hc0] at hrun
      have hgoal : (⟨R, k, len, ⟨0, a.data.chunks.length, some 0, some c0.size⟩,
          archetypeEnd a, ks.map (fun t => offset_in w.sizes t a.types)⟩ : QueryIt) =
          atState R k len a.data.chunks.length
            (ks.map (fun t => offset_in w.sizes t a.types)) 0 0 c0.size := rfl
      rw [hgoal]
      have htr : hiveRows a.data ++
          ((la'.filter (fun a => a.types &&& R == R)).map (fun a => hiveRows a.data)).flatten =
          ((a.data.chunks.map chunkRows).flatten) ++
          (((la'.filter (fun a => a.types &&& R == R)).map (fun a => hiveRows a.data)).flatten) := rfl
      rw [htr]
      exact hrun
    · rw [findNextAux_skip w ks R len k _ a hk hm]
      have hmb : (a.types &&& R == R) = false := by
        simp only [beq_eq_false_iff_ne, ne_eq]
        exact hm
      rw [List.filter_cons, if_neg (by rw [hmb]; exact Bool.false_ne_true)]
      have hfold : findNextAux w ks R len (k + 1) (len - (k + 1)) =
          findNextArchetype w ks R (k + 1) len := rfl
      rw [hfold]
      exact ih (k + 1) hdrop'

/-! ## Worlds built by inserts -/

theorem buildFold_none (t : List (List (Nat × List Byte) × Nat)) :
    t.foldl (fun ow call => ow.bind fun w => (worldInsert w call.1 call.2).map Prod.snd)
      none = none := by
  induction t with
  | nil => rfl
  | cons c t ih => simpa using ih

theorem buildWorld_go_wf (calls : List (List (Nat × List Byte) × Nat)) :
    ∀ (w0 w : WorldM), WorldWF w0 →
      calls.foldl (fun ow call => ow.bind fun w => (worldInsert w call.1 call.2).map Prod.snd)
        (some w0) = some w → WorldWF w := by
  induction calls with
  | nil =>
    intro w0 w h0 h
    simp at h
    rwa [← h]
  | cons c t ih =>
    intro w0 w h0 h
    rw [List.foldl_cons] at h
    have hacc : (Option.bind (some w0) fun v => (worldInsert v c.1 c.2).map Prod.snd) =
        (worldInsert w0 c.1 c.2).map Prod.snd := rfl
    rw [hacc] at h
    cases hx : worldInsert w0 c.1 c.2 with
    | none =>
      rw [hx] at h
      simp only [Option.map_none'] at h
      rw [buildFold_none] at h
      cases h
    | some p =>
      rw [hx] at h
      simp only [Option.map_some'] at h
      have hwf' : WorldWF p.2 :=
        (worldInsert_spec w0 c.1 c.2 p.1 p.2 h0 (by rw [hx])).1
      exact ih p.2 w hwf' h

/-- Any world built by a sequence of inserts is insert-only well-formed. -/
theorem buildWorld_wf (sizes : List Nat) (calls : List (List (Nat × List Byte) × Nat))
    (w : WorldM) (h : buildWorld sizes calls = some w) : WorldWF w := by
  apply buildWorld_go_wf calls ⟨sizes, []⟩ w
  · intro a ha
    simp at ha
  · exact h

theorem queryTraceSpec_length_le (w : WorldM) (R : Nat) :
    (queryTraceSpec w R).length ≤ totalRows w := by
  unfold queryTraceSpec totalRows
  rw [List.length_flatten]
  have hsub : ((w.archetypes.filter (fun a => a.types &&& R == R)).map
      (fun a => hiveRows a.data)).Sublist (w.archetypes.map (fun a => hiveRows a.data)) :=
    (List.filter_sublist _).map _
  have hsum := List.Sublist.sum_le_sum (hsub.map List.length)
    (by intro x hx; exact Nat.zero_le x)
  calc (List.map List.length ((w.archetypes.filter (fun a => a.types &&& R == R)).map
        (fun a => hiveRows a.data))).sum
      ≤ (List.map List.length (w.archetypes.map (fun a => hiveRows a.data))).sum := hsum
    _ = (w.archetypes.map (fun a => (hiveRows a.data).length)).sum := by
        rw [List.map_map]
        rfl

theorem hiveIterate_of_hRunTo {chunks : List ChunkM} {stop it : HiveIt}
    {tr : List SlotVal} (h : HRunTo chunks stop it tr) :
    ∀ fuel, tr.length < fuel → hiveIterate chunks fuel it stop = tr := by
  induction h with
  | halt it hq =>
    intro fuel hf
    cases fuel with
    | zero => omega
    | succ m =>
      unfold hiveIterate
      simp [hq]
  | step it r rest hne hd hnext ih =>
    intro fuel hf
    cases fuel with
    | zero => omega
    | succ m =>
      unfold hiveIterate
      simp only [hne, Bool.false_eq_true, if_false]
      rw [hd, ih m (by simp at hf; omega)]

theorem hiveItDeref_pos (chunks : List ChunkM) (ci clen si sz : Nat) (c : ChunkM)
    (hc : chunks[ci]? = some c) :
    hiveItDeref chunks ⟨ci, clen, some si, some sz⟩ = some (c.slots si) := by
  unfold hiveItDeref
  dsimp only
  rw [hc]

theorem hRunTo_slots (chunks : List ChunkM) :
    ∀ (m : Nat), ∀ (si ci : Nat) (c : ChunkM), chunks[ci]? = some c →
      si + (m + 1) = c.size →
      ∀ (qn : HiveIt) (rest : List SlotVal),
      ((ci + 1 = chunks.length ∧ qn = hiveItSentinel chunks.length) ∨
       (∃ c', chunks[ci + 1]? = some c' ∧
          qn = ⟨ci + 1, chunks.length, some 0, some c'.size⟩)) →
      HRunTo chunks (hiveItSentinel chunks.length) qn rest →
      HRunTo chunks (hiveItSentinel chunks.length)
        ⟨ci, chunks.length, some si, some c.size⟩
        (((List.range' si (m + 1)).map c.slots) ++ rest) := by
  intro m
  induction m with
  | zero =>
    intro si ci c hc hsz qn rest hqn hcont
    rw [List.range'_succ]
    simp only [List.range'_zero, List.map_cons, List.map_nil, List.cons_append,
      List.nil_append]
    apply HRunTo.step
    · exact hiveItEq_mid_sentinel ci chunks.length si c.size chunks.length
    · exact hiveItDeref_pos chunks ci chunks.length si c.size c hc
    · rw [hiveItInc_endChunk _ _ _ _ _ (by omega)]
      rcases hqn with ⟨hci, hq⟩ | ⟨c', hc', hq⟩
      · rw [nextChunk_stop _ _ (by dsimp only; exact hci)]
        dsimp only
        rw [hq] at hcont
        exact hcont
      · rw [nextChunk_enter _ _ c'
          (by dsimp only; have := (List.getElem?_eq_some_iff.mp hc').1; omega)
          (by dsimp only; exact hc')]
        rw [hq] at hcont
        exact hcont
  | succ n ih =>
    intro si ci c hc hsz qn rest hqn hcont
    rw [List.range'_succ]
    simp only [List.map_cons, List.cons_append]
    apply HRunTo.step
    · exact hiveItEq_mid_sentinel ci chunks.length si c.size chunks.length
    · exact hiveItDeref_pos chunks ci chunks.length si c.size c hc
    · rw [hiveItInc_mid _ _ _ _ _ (by omega)]
      exact ih (si + 1) ci c hc (by omega) qn rest hqn hcont

theorem hRunTo_chunks (chunks : List ChunkM) (hpos : ∀ c ∈ chunks, 0 < c.size) :
    ∀ (lc : List ChunkM) (ci : Nat), chunks.drop ci = lc →
      HRunTo chunks (hiveItSentinel chunks.length)
        (match chunks[ci]? with
         | some c => ⟨ci, chunks.length, some 0, some c.size⟩
         | none => hiveItSentinel chunks.length)
        ((lc.map chunkRows).flatten) := by
  intro lc
  induction lc with
  | nil =>
    intro ci hdrop
    have hnone : chunks[ci]? = none := by
      rw [← List.head?_drop, hdrop]
      rfl
    rw [hnone]
    exact HRunTo.halt _ (hiveItEq_sentinel_self chunks.length)
  | cons c lc' ih =>
    intro ci hdrop
    have hc : chunks[ci]? = some c := by
      rw [← List.head?_drop, hdrop]
      rfl
    rw [hc]
    dsimp only
    have hdrop' : chunks.drop (ci + 1) = lc' := by
      have hstep := congrArg (List.drop 1) hdrop
      rw [List.drop_drop] at hstep
      simpa [Nat.add_comm] using hstep
    have hcsize : 0 < c.size := hpos c (by
      have hmem : c ∈ chunks.drop ci := by
        rw [hdrop]
        exact List.mem_cons_self ..
      exact List.drop_subset _ _ hmem)
    have hcont' := ih (ci + 1) hdrop'
    obtain ⟨m, hm⟩ : ∃ m, 0 + (m + 1) = c.size := ⟨c.size - 1, by omega⟩
    have htrace : ((c :: lc').map chunkRows).flatten =
        ((List.range' 0 (m + 1)).map c.slots) ++ ((lc'.map chunkRows).flatten) := by
      simp only [List.map_cons, List.flatten_cons]
      congr 1
      unfold chunkRows
      rw [← hm]
      simp [List.range_eq_range']
    rw [htrace]
    cases hnext : chunks[ci + 1]? with
    | some c' =>
      rw [hnext] at hcont'
      exact hRunTo_slots chunks m 0 ci c hc hm _ _ (Or.inr ⟨c', hnext, rfl⟩) hcont'
    | none =>
      rw [hnext] at hcont'
      have hci1 : ci + 1 = chunks.length := by
        have hlt : ci < chunks.length := (List.getElem?_eq_some_iff.mp hc).1
        have hge : chunks.length ≤ ci + 1 := by
          by_contra hcon
          push_neg at hcon
          rw [List.getElem?_eq_none_iff] at hnext
          omega
        omega
      exact hRunTo_slots chunks m 0 ci c hc hm _ _ (Or.inl ⟨hci1, rfl⟩) hcont'

/-- Iterating an archetype from `Archetype::begin()` to `Archetype::end()`
visits exactly the hive's rows in chunk-then-slot order. -/
theorem archetype_iteration_rows (a : ArchetypeM) (hwf : HiveWF a.data) :
    hiveIterate a.data.chunks ((hiveRows a.data).length + 1)
      (archetypeBegin a) (archetypeEnd a) = hiveRows a.data := by
  have hpos : ∀ c ∈ a.data.chunks, 0 < c.size := fun c hc => (hwf.2.1 c hc).1
  have hrun := hRunTo_chunks a.data.chunks hpos a.data.chunks 0 (by simp)
  have hstop : archetypeEnd a = hiveItSentinel a.data.chunks.length := rfl
  cases hx : a.data.chunks[0]? with
  | some c0 =>
    rw [hx] at hrun
    rw [hstop, archetypeBegin_eq a c0 hx]
    exact hiveIterate_of_hRunTo hrun _ (Nat.lt_succ_self _)
  | none =>
    rw [hx] at hrun
    have hemp : a.data.chunks = [] := by
      rw [List.getElem?_eq_none_iff] at hx
      exact List.eq_nil_of_length_eq_zero (by omega)
    have hbeg : archetypeBegin a = hiveItSentinel a.data.chunks.length := by
      unfold archetypeBegin hiveEnd hiveItOfHive
      rw [nextChunk_stop _ _ (by dsimp only; rw [hemp]; rfl)]
    rw [hstop, hbeg]
    exact hiveIterate_of_hRunTo hrun _ (Nat.lt_succ_self _)

/-! ## Reading components back through the entity accessor -/

theorem mask_and_self_of_bits (m1 m2 : Nat)
    (h : ∀ j, m1.testBit j = true → m2.testBit j = true) : m1 &&& m2 = m1 := by
  apply Nat.eq_of_testBit_eq
  intro j
  rw [Nat.testBit_and]
  cases hx : m1.testBit j with
  | false => simp
  | true => simp [h j hx]

theorem asTypeSet_subset_of_mem (ks : List Nat) (m : Nat)
    (h : ∀ k ∈ ks, m.testBit k = true) : asTypeSet ks &&& m = asTypeSet ks := by
  apply mask_and_self_of_bits
  intro j hj
  rw [testBit_asTypeSet] at hj
  rcases List.any_eq_true.mp hj with ⟨k, hk, hkj⟩
  have hkj' : k = j := by simpa using hkj
  subst hkj'
  exact h k hk

/-- The exact value `entity<Ts...>` returns once the archetype and the
slot's chunk resolve. -/
theorem worldEntityE_ok (w' : WorldM) (hnd : Handle) (ks : List Nat) (A' : ArchetypeM)
    (c' : ChunkM)
    (hget : w'.archetypes[hnd.archetype]? = some A')
    (hmask : asTypeSet ks &&& A'.types = asTypeSet ks)
    (hc' : A'.data.chunks[hnd.idx.1]? = some c') :
    worldEntityE w' hnd ks = .ok (ks.map (fun k =>
      sliceRow (rowSpan (c'.slots hnd.idx.2) A'.data.tinfoSize)
        (offset_in w'.sizes k A'.types) (w'.sizes.getD k 0))) := by
  have hle : hnd.idx.1 ≤ A'.data.chunks.length :=
    Nat.le_of_lt (List.getElem?_eq_some_iff.mp hc').1
  unfold worldEntityE
  rw [hget]
  dsimp only
  rw [if_pos hmask]
  unfold hiveGetE
  rw [if_pos hle, hc']

theorem asTypeSet_pair_comm (kA kB : Nat) : asTypeSet [kA, kB] = asTypeSet [kB, kA] := by
  unfold asTypeSet
  simp only [List.foldl_cons, List.foldl_nil]
  rw [Nat.or_assoc, Nat.or_assoc, Nat.or_comm (1 <<< kA) (1 <<< kB)]

theorem writtenAt_pair_comm (sizes : List Nat) (kA kB : Nat) (a b : List Byte) (p : Nat) :
    writtenAt sizes [(kA, a), (kB, b)] p = writtenAt sizes [(kB, b), (kA, a)] p := by
  unfold writtenAt
  simp only [List.map_cons, List.map_nil, List.any_cons, List.any_nil, Bool.or_false]
  simp only [asTypeSet_pair_comm kA kB]
  exact Bool.or_comm _ _

theorem getElem?_eq_some_none_of_getD (l : List (Option Byte)) (p : Nat)
    (hp : p < l.length) (h : l.getD p none = none) : l[p]? = some none := by
  rw [List.getD_eq_getElem?_getD] at h
  cases hx : l[p]? with
  | none =>
    rw [List.getElem?_eq_none_iff] at hx
    omega
  | some x =>
    rw [hx] at h
    simp at h
    rw [h]

theorem argsWF_pair_comm (sizes : List Nat) (kA kB : Nat) (a b : List Byte) (N : Nat)
    (hAB : kA ≠ kB) (hwf : ArgsWF sizes [(kA, a), (kB, b)] N) :
    ArgsWF sizes [(kB, b), (kA, a)] N := by
  obtain ⟨hnd, hargs, hW⟩ := hwf
  refine ⟨?_, ?_, ?_⟩
  · simp only [List.map_cons, List.map_nil] at hnd ⊢
    simp only [List.nodup_cons, List.mem_singleton, List.not_mem_nil,
      not_false_iff, List.nodup_nil, and_true] at hnd ⊢
    exact fun hcon => hAB hcon.symm
  · intro kv hkv
    apply hargs
    simp at hkv ⊢
    tauto
  · have hmap : ([(kB, b), (kA, a)].map Prod.fst) = [kB, kA] := rfl
    have hmap2 : ([(kA, a), (kB, b)].map Prod.fst) = [kA, kB] := rfl
    rw [hmap, ← asTypeSet_pair_comm]
    rw [hmap2] at hW
    exact hW

/-- The scatter into the scratch row is order-independent for a
two-component pack: `insert(a, b)` and `insert(b, a)` build identical
rows. -/
theorem buildRow_pair_comm (sizes : List Nat) (kA kB : Nat) (a b : List Byte) (N : Nat)
    (hAB : kA ≠ kB) (hwfargs : ArgsWF sizes [(kA, a), (kB, b)] N) :
    buildRow sizes [(kA, a), (kB, b)] N = buildRow sizes [(kB, b), (kA, a)] N := by
  have hwf2 : ArgsWF sizes [(kB, b), (kA, a)] N := argsWF_pair_comm sizes kA kB a b N hAB hwfargs
  have hoffA : offset_in sizes kA (asTypeSet [kB, kA]) =
      offset_in sizes kA (asTypeSet [kA, kB]) := by rw [← asTypeSet_pair_comm]
  have hoffB : offset_in sizes kB (asTypeSet [kB, kA]) =
      offset_in sizes kB (asTypeSet [kA, kB]) := by rw [← asTypeSet_pair_comm]
  apply List.ext_getElem?
  intro p
  rcases Nat.lt_or_ge p N with hp | hp
  swap
  · rw [List.getElem?_eq_none (by rw [buildRow_length]; omega),
      List.getElem?_eq_none (by rw [buildRow_length]; omega)]
  by_cases hwr : writtenAt sizes [(kA, a), (kB, b)] p = true
  · have hwr2 := hwr
    simp only [writtenAt, List.map_cons, List.map_nil, List.any_cons, List.any_nil,
      Bool.or_false, Bool.or_eq_true, Bool.and_eq_true, decide_eq_true_eq] at hwr2
    rcases hwr2 with ⟨hle, hlt⟩ | ⟨hle, hlt⟩
    · have hjlen : p - offset_in sizes kA (asTypeSet [kA, kB]) < a.length := by omega
      have hj : p = offset_in sizes kA (asTypeSet [kA, kB]) +
          (p - offset_in sizes kA (asTypeSet [kA, kB])) := by omega
      have e1 : (buildRow sizes [(kA, a), (kB, b)] N)[offset_in sizes kA (asTypeSet [kA, kB]) +
          (p - offset_in sizes kA (asTypeSet [kA, kB]))]? =
          some (some (a.getD (p - offset_in sizes kA (asTypeSet [kA, kB])) 0)) :=
        buildRow_getElem?_arg sizes [(kA, a), (kB, b)] N hwfargs (kA, a) (by simp) hjlen
      have e2 : (buildRow sizes [(kB, b), (kA, a)] N)[offset_in sizes kA (asTypeSet [kB, kA]) +
          (p - offset_in sizes kA (asTypeSet [kA, kB]))]? =
          some (some (a.getD (p - offset_in sizes kA (asTypeSet [kA, kB])) 0)) :=
        buildRow_getElem?_arg sizes [(kB, b), (kA, a)] N hwf2 (kA, a) (by simp) hjlen
      rw [hoffA] at e2
      rw [hj, e1, e2]
    · have hjlen : p - offset_in sizes kB (asTypeSet [kA, kB]) < b.length := by omega
      have hj : p = offset_in sizes kB (asTypeSet [kA, kB]) +
          (p - offset_in sizes kB (asTypeSet [kA, kB])) := by omega
      have e1 : (buildRow sizes [(kA, a), (kB, b)] N)[offset_in sizes kB (asTypeSet [kA, kB]) +
          (p - offset_in sizes kB (asTypeSet [kA, kB]))]? =
          some (some (b.getD (p - offset_in sizes kB (asTypeSet [kA, kB])) 0)) :=
        buildRow_getElem?_arg sizes [(kA, a), (kB, b)] N hwfargs (kB, b) (by simp) hjlen
      have e2 : (buildRow sizes [(kB, b), (kA, a)] N)[offset_in sizes kB (asTypeSet [kB, kA]) +
          (p - offset_in sizes kB (asTypeSet [kA, kB]))]? =
          some (some (b.getD (p - offset_in sizes kB (asTypeSet [kA, kB])) 0)) :=
        buildRow_getElem?_arg sizes [(kB, b), (kA, a)] N hwf2 (kB, b) (by simp) hjlen
      rw [hoffB] at e2
      rw [hj, e1, e2]
  · have hwr' : writtenAt sizes [(kA, a), (kB, b)] p = false := by
      cases hx : writtenAt sizes [(kA, a), (kB, b)] p
      · rfl
      · exact absurd hx hwr
    have h1 := buildRow_getD_not_written sizes [(kA, a), (kB, b)] N p hwr'
    have h2 := buildRow_getD_not_written sizes [(kB, b), (kA, a)] N p
      (by rw [← writtenAt_pair_comm]; exact hwr')
    rw [getElem?_eq_some_none_of_getD _ p (by rw [buildRow_length]; omega) h1,
      getElem?_eq_some_none_of_getD _ p (by rw [buildRow_length]; omega) h2]

/-- The archetype and slot a fresh handle points at. -/
theorem worldInsert_handle_state (w : WorldM) (args : List (Nat × List Byte)) (N : Nat)
    (hnd : Handle) (w' : WorldM) (hwf : WorldWF w)
    (hN : ∀ a0 ∈ w.archetypes, a0.types = asTypeSet (args.map Prod.fst) →
      a0.data.tinfoSize = N)
    (hins : worldInsert w args N = some (hnd, w')) :
    w'.sizes = w.sizes ∧
    ∃ A' c', w'.archetypes[hnd.archetype]? = some A' ∧
      A'.types = asTypeSet (args.map Prod.fst) ∧
      A'.data.tinfoSize = N ∧
      A'.data.chunks[hnd.idx.1]? = some c' ∧ hnd.idx.2 < c'.size ∧
      c'.slots hnd.idx.2 = .bytes (buildRow w.sizes args N) := by
  have hspec := worldInsert_spec w args N hnd w' hwf hins
  obtain ⟨hwf', hsz', hgen, hmain⟩ := hspec
  refine ⟨hsz', ?_⟩
  cases hfind : findMaskIdx w.archetypes (asTypeSet (args.map Prod.fst)) with
  | some i =>
    rw [hfind] at hmain
    obtain ⟨hhnd, hlen, hother, a, a', hgeta, hgeta', hty', htya, htinfo, htisz,
      hrows, hold, hslot, c', hc', hlive⟩ := hmain
    have hNa : a.data.tinfoSize = N := hN a (List.getElem?_mem hgeta) htya
    refine ⟨a', c', by rw [hhnd]; exact hgeta', by rw [hty']; exact htya,
      by rw [htisz]; exact hNa, hc', hlive, ?_⟩
    unfold slotAt at hslot
    rw [hc'] at hslot
    simpa using hslot
  | none =>
    rw [hfind] at hmain
    obtain ⟨hhnd, a', harr, hty', htinfo, htisz, hrows, hslot, c', hc', hlive⟩ := hmain
    refine ⟨a', c', ?_, hty', htisz, hc', hlive, ?_⟩
    · rw [hhnd, harr]
      exact List.getElem?_concat_length _ _
    · unfold slotAt at hslot
      rw [hc'] at hslot
      simpa using hslot

/-! ## Claim theorems -/

theorem findNext_no_match (w : WorldM) (ks : List Nat) (R : Nat)
    (h : ∀ a ∈ w.archetypes, ¬ (a.types &&& R = R)) :
    ∀ (la : List ArchetypeM) (k : Nat), w.archetypes.drop k = la →
      findNextArchetype w ks R k w.archetypes.length = queryEnd R w.archetypes.length ks.length := by
  intro la
  induction la with
  | nil =>
    intro k hdrop
    rw [List.drop_eq_nil_iff] at hdrop
    exact findNextArchetype_stop w ks R w.archetypes.length k (by omega)
  | cons a la' ih =>
    intro k hdrop
    have hk : w.archetypes[k]? = some a := by
      rw [← List.head?_drop, hdrop]
      rfl
    have hdrop' : w.archetypes.drop (k + 1) = la' := by
      have hstep := congrArg (List.drop 1) hdrop
      rw [List.drop_drop] at hstep
      simpa [Nat.add_comm] using hstep
    have hklt : k < w.archetypes.length := (List.getElem?_eq_some_iff.mp hk).1
    have hfuel : w.archetypes.length - k = (w.archetypes.length - (k + 1)) + 1 := by omega
    unfold findNextArchetype
    rw [hfuel, findNextAux_skip w ks R w.archetypes.length k _ a hk
      (h a (List.getElem?_mem hk))]
    have hfold : findNextAux w ks R w.archetypes.length (k + 1)
        (w.archetypes.length - (k + 1)) = findNextArchetype w ks R (k + 1) w.archetypes.length := rfl
    rw [hfold]
    exact ih (k + 1) hdrop'

/-- C10: `query()` on a world none of whose archetypes' masks is a
superset of the requested mask (in particular a world with no archetypes)
returns an iterator that is literally the `end()` sentinel: it compares
equal to `end()`, its row pointer is null, and the client loop dereferences
nothing and yields zero tuples. -/
theorem query_no_match_is_end (w : WorldM) (ks : List Nat)
    (h : ∀ a ∈ w.archetypes, ¬ (a.types &&& asTypeSet ks = asTypeSet ks)) :
    queryInit w ks = queryEnd (asTypeSet ks) w.archetypes.length ks.length ∧
    queryEq (queryInit w ks) (queryEnd (asTypeSet ks) w.archetypes.length ks.length) = true ∧
    (queryInit w ks).hCur.itemCur = none ∧
    (∀ fuel, queryRun w ks fuel (queryInit w ks) = []) := by
  have heq := findNext_no_match w ks (asTypeSet ks) h w.archetypes 0 (by simp)
  have hinit : queryInit w ks = queryEnd (asTypeSet ks) w.archetypes.length ks.length := heq
  refine ⟨hinit, ?_, ?_, ?_⟩
  · rw [hinit]
    exact queryEq_end_end ks _ _
  · rw [hinit]
    rfl
  · intro fuel
    cases fuel with
    | zero => rfl
    | succ m =>
      rw [hinit]
      unfold queryRun
      rw [if_pos (queryEq_end_end ks (asTypeSet ks) w.archetypes.length)]

/-- C9: `hive::begin()` returns the end sentinel of hive iteration and
`hive::end()` the iterator positioned at the first allocated row (they are
swapped); `Archetype::begin()` is `data.end()` and `Archetype::end()` is
`data.begin()`, so the double swap makes archetype-level traversal visit
every row in chunk-then-slot order, while iterating a hive directly from
its own `begin()` to `end()` starts at the sentinel (null row pointer,
not equal to `end()`), so it does not visit the rows. -/
theorem begin_end_swapped :
    (∀ h : HiveM, hiveBegin h = hiveItSentinel h.chunks.length) ∧
    (∀ h : HiveM, hiveEnd h = hiveItOfHive h.chunks) ∧
    (∀ a : ArchetypeM, archetypeBegin a = hiveEnd a.data ∧ archetypeEnd a = hiveBegin a.data) ∧
    (∀ a : ArchetypeM, HiveWF a.data →
      hiveIterate a.data.chunks ((hiveRows a.data).length + 1) (archetypeBegin a)
        (archetypeEnd a) = hiveRows a.data) ∧
    (∀ h : HiveM, ∀ c0, h.chunks[0]? = some c0 →
      hiveItEq (hiveBegin h) (hiveEnd h) = false ∧
      hiveItDeref h.chunks (hiveBegin h) = none) := by
  refine ⟨fun h => rfl, fun h => rfl, fun a => ⟨rfl, rfl⟩,
    fun a hwf => archetype_iteration_rows a hwf, ?_⟩
  intro h c0 hc0
  have hlt : 0 < h.chunks.length := (List.getElem?_eq_some_iff.mp hc0).1
  constructor
  · have hend : hiveEnd h = ⟨0, h.chunks.length, some 0, some c0.size⟩ := by
      unfold hiveEnd hiveItOfHive
      rw [nextChunk_enter _ _ c0 (by dsimp only; omega) (by dsimp only; exact hc0)]
    rw [hend]
    simp [hiveItEq, hiveBegin, hiveItSentinel]
  · rfl

/-- C4 (code bug evidence): `hive::remove` indexes the chunk vector with
`info.chunk_index` (the slot ordinal) instead of `info.chunk`.  Freeing the
second allocated index `(chunk 0, slot 1)` therefore accesses chunk-vector
position 1 of a one-chunk hive — out of range (UB), with the freed slot's
bytes never overwritten — while the free-list round trip works only at the
coincidental index `(0, 0)`. -/
theorem hive_free_wrong_chunk :
    ((hiveCreate (hiveInit 8)).map Prod.fst = some (0, 0)) ∧
    (((hiveCreate (hiveInit 8)).bind fun p => hiveCreate p.2).map Prod.fst = some (0, 1)) ∧
    ((((hiveCreate (hiveInit 8)).bind fun p => hiveCreate p.2).bind
        fun p => hiveRemove p.2 (0, 1)).isNone = true) ∧
    (((hiveCreate (hiveInit 8)).bind fun p => hiveRemove p.2 (0, 0)).bind
        (fun h => (hiveCreate h).map Prod.fst) = some (0, 0)) :=
  ⟨rfl, rfl, rfl, rfl⟩

/-- C7 (code bug evidence): resolving a handle whose archetype ordinal is
out of range performs the unchecked `archetypes_[...]` access with no
assertion at all (`oobAccess`, not `assertFail`); and `hive::get`'s
`assert(info.chunk <= inner.size())` is off by one — the out-of-range
chunk ordinal equal to the chunk count passes the assertion and reaches
the out-of-range `inner[info.chunk]` access; only ordinals strictly beyond
the size trip the assertion. -/
theorem handle_bounds_check :
    witC7World.archetypes.length = 1 ∧
    worldEntityE witC7World ⟨0, 1, (0, 0)⟩ [0] = .error .oobAccess ∧
    witC7Hive.chunks.length = 1 ∧
    hiveGetE witC7Hive (1, 0) = .error .oobAccess ∧
    hiveGetE witC7Hive (2, 0) = .error .assertFail :=
  ⟨rfl, rfl, rfl, rfl, rfl⟩

/-- C5 (counterexample): `insert(a, a')` of two 4-byte values of one
registered kind builds its scratch row as `std::array<std::byte, N>` with
`N = sizeof(std::tuple) = 8`, not `W = Σ sizes of the mask's kinds = 4`,
and never zero-initializes it: byte 4 of the stored row is indeterminate
(`none`), not zero. -/
theorem insert_scratch_counterexample :
    (buildRow [4] [(0, [1, 2, 3, 4]), (0, [5, 6, 7, 8])] 8).length ≠
      maskWidth [4] (asTypeSet ([(0, [1, 2, 3, 4]), (0, [5, 6, 7, 8])].map Prod.fst)) ∧
    (buildRow [4] [(0, [1, 2, 3, 4]), (0, [5, 6, 7, 8])] 8).getD 4 none = none ∧
    ((worldInsert ⟨[4], []⟩ [(0, [1, 2, 3, 4]), (0, [5, 6, 7, 8])] 8).map
        (fun p => slotAt (p.2.archetypes.getD 0 (archetypeInit 0 0)).data 0 0)) =
      some (some (.bytes [some 5, some 6, some 7, some 8, none, none, none, none])) := by
  refine ⟨by decide, by decide, by decide⟩

/-- C5 (amended): the scratch row has exactly `N = sizeof(std::tuple<Ts...>)`
bytes (the caller's pack size, in general larger than the mask width `W`)
and is default-initialized, so every byte of the stored row not overwritten
by some argument's copy is indeterminate — not necessarily zero. -/
theorem insert_scratch_default_init (sizes : List Nat) (args : List (Nat × List Byte))
    (N : Nat) :
    (buildRow sizes args N).length = N ∧
    (∀ p, writtenAt sizes args p = false → (buildRow sizes args N).getD p none = none) ∧
    (∀ (w : WorldM) (hnd : Handle) (w' : WorldM), WorldWF w → w.sizes = sizes →
      worldInsert w args N = some (hnd, w') →
      ∃ A', w'.archetypes[hnd.archetype]? = some A' ∧
        slotAt A'.data hnd.idx.1 hnd.idx.2 = some (.bytes (buildRow sizes args N))) := by
  refine ⟨buildRow_length sizes args N, ?_, ?_⟩
  · intro p hp
    exact buildRow_getD_not_written sizes args N p hp
  · intro w hnd w' hwf hsz hins
    have hspec := worldInsert_spec w args N hnd w' hwf hins
    obtain ⟨hwf', hsz', hgen, hmain⟩ := hspec
    cases hfind : findMaskIdx w.archetypes (asTypeSet (args.map Prod.fst)) with
    | some i =>
      rw [hfind] at hmain
      obtain ⟨hhnd, hlen, hother, a, a', hgeta, hgeta', hty', htya, htinfo, htisz,
        hrows, hold, hslot, hlive⟩ := hmain
      exact ⟨a', by rw [hhnd]; exact hgeta', by rw [← hsz]; exact hslot⟩
    | none =>
      rw [hfind] at hmain
      obtain ⟨hhnd, a', harr, hty', htinfo, htisz, hrows, hslot, hlive⟩ := hmain
      refine ⟨a', ?_, by rw [← hsz]; exact hslot⟩
      rw [hhnd, harr]
      exact List.getElem?_concat_length _ _

/-- C6: hive allocation policy — if the free list is non-empty the
allocation pops and returns its head (under the insert-only invariant this
is the next unused slot of the last chunk); if the free list is empty a new
chunk is appended and its slot 0 returned, which under the invariant
happens exactly when no chunk exists or the last chunk holds its 1024th
row; the allocation always succeeds — it never aborts because a chunk is
full. -/
theorem hive_allocate_policy :
    (∀ (h : HiveM) (i r : Nat × Nat) (h' : HiveM),
      h.nextFree = some i → hiveCreate h = some (r, h') → r = i) ∧
    (∀ h : HiveM, h.nextFree = none →
      ∃ h', hiveCreate h = some ((h.chunks.length, 0), h') ∧
        h'.chunks.length = h.chunks.length + 1) ∧
    (∀ h : HiveM, HiveWF h → ∃ r h', hiveCreate h = some (r, h') ∧
      (match h.nextFree with
       | some i => r = i ∧ i.1 + 1 = h.chunks.length ∧
           ∃ c, h.chunks.getLast? = some c ∧ i.2 = c.size ∧ c.size < chunkCap
       | none => r = (h.chunks.length, 0) ∧
           (h.chunks = [] ∨ ∃ c, h.chunks.getLast? = some c ∧ c.size = chunkCap))) := by
  refine ⟨fun h i r h' => hiveCreate_pops_head h i r h', ?_, ?_⟩
  · intro h hnf
    obtain ⟨h', hc, hlen, _⟩ := hiveCreate_appends_chunk h hnf
    exact ⟨h', hc, hlen⟩
  · intro h hwf
    have hnfinv := hwf.2.2
    obtain ⟨r, h', hc, _, hcase⟩ := hive_insert_spec h .uninit hwf
    refine ⟨r, h', hc, ?_⟩
    cases hnf : h.nextFree with
    | some i =>
      rw [hnf] at hcase hnfinv
      exact ⟨hcase, hnfinv⟩
    | none =>
      rw [hnf] at hcase hnfinv
      exact ⟨hcase, hnfinv⟩

/-- C1: For every world built by a sequence of inserts and every query over
component kinds `ks`, the client loop over the returned query iterator
(from `begin()` to `end()`) yields exactly the rows of those archetypes
whose mask is a superset of the query's mask — each live row exactly once,
rows in chunk-then-slot order, and archetypes in the world's
archetype-insertion order. -/
theorem query_coverage (sizes : List Nat) (calls : List (List (Nat × List Byte) × Nat))
    (ks : List Nat) (w : WorldM) (hbuild : buildWorld sizes calls = some w) :
    queryRun w ks (totalRows w + 1) (queryInit w ks) = queryTraceSpec w (asTypeSet ks) := by
  have hwf : WorldWF w := buildWorld_wf sizes calls w hbuild
  have hrun := runTo_query w ks (asTypeSet ks) w.archetypes.length rfl hwf
    w.archetypes 0 (by simp)
  exact queryRun_of_runTo hrun (totalRows w + 1)
    (Nat.lt_succ_of_le (queryTraceSpec_length_le w (asTypeSet ks)))

/-! ## Archetype-mask uniqueness -/

theorem set_of_getElem?_eq {α : Type} (l : List α) (i : Nat) (x : α)
    (h : l[i]? = some x) : l.set i x = l := by
  induction l generalizing i with
  | nil => simp at h
  | cons hd t ih =>
    cases i with
    | zero =>
      simp at h
      rw [List.set_cons_zero, h]
    | succ n =>
      simp at h
      rw [List.set_cons_succ, ih n h]

/-- The masks of a world after one insert: unchanged when the mask already
had an archetype, else extended by the fresh mask (absent before). -/
theorem worldInsert_masks (w : WorldM) (args : List (Nat × List Byte)) (N : Nat)
    (hnd : Handle) (w' : WorldM) (hwf : WorldWF w)
    (hins : worldInsert w args N = some (hnd, w')) :
    (w'.archetypes.map (fun a => a.types)) = (w.archetypes.map (fun a => a.types)) ∨
    ((w'.archetypes.map (fun a => a.types)) =
        (w.archetypes.map (fun a => a.types)) ++ [asTypeSet (args.map Prod.fst)] ∧
      (∀ a ∈ w.archetypes, a.types ≠ asTypeSet (args.map Prod.fst))) := by
  have hspec := worldInsert_spec w args N hnd w' hwf hins
  obtain ⟨hwf', hsz', hgen, hmain⟩ := hspec
  cases hfind : findMaskIdx w.archetypes (asTypeSet (args.map Prod.fst)) with
  | some i =>
    rw [hfind] at hmain
    obtain ⟨hhnd, hlen, hother, a, a', hgeta, hgeta', hty', htya, _⟩ := hmain
    left
    apply List.ext_getElem?
    intro j
    rw [List.getElem?_map, List.getElem?_map]
    rcases eq_or_ne j i with hj | hj
    · subst hj
      rw [hgeta, hgeta']
      simp [hty']
    · rw [hother j hj]
  | none =>
    rw [hfind] at hmain
    obtain ⟨hhnd, a', harr, hty', _⟩ := hmain
    right
    constructor
    · rw [harr]
      simp [hty']
    · exact (findMaskIdx_none_iff _ _).mp hfind

theorem buildWorld_go_nodup (calls : List (List (Nat × List Byte) × Nat)) :
    ∀ (w0 w : WorldM), WorldWF w0 → (w0.archetypes.map (fun a => a.types)).Nodup →
      calls.foldl (fun ow call => ow.bind fun w => (worldInsert w call.1 call.2).map Prod.snd)
        (some w0) = some w → (w.archetypes.map (fun a => a.types)).Nodup := by
  induction calls with
  | nil =>
    intro w0 w h0 hn h
    simp at h
    rwa [← h]
  | cons c t ih =>
    intro w0 w h0 hn h
    rw [List.foldl_cons] at h
    have hacc : (Option.bind (some w0) fun v => (worldInsert v c.1 c.2).map Prod.snd) =
        (worldInsert w0 c.1 c.2).map Prod.snd := rfl
    rw [hacc] at h
    cases hx : worldInsert w0 c.1 c.2 with
    | none =>
      rw [hx] at h
      simp only [Option.map_none'] at h
      rw [buildFold_none] at h
      cases h
    | some p =>
      rw [hx] at h
      simp only [Option.map_some'] at h
      have hwf' : WorldWF p.2 :=
        (worldInsert_spec w0 c.1 c.2 p.1 p.2 h0 (by rw [hx])).1
      have hn' : (p.2.archetypes.map (fun a => a.types)).Nodup := by
        rcases worldInsert_masks w0 c.1 c.2 p.1 p.2 h0 (by rw [hx]) with heq | ⟨heq, habs⟩
        · rwa [heq]
        · rw [heq]
          rw [List.nodup_append]
          refine ⟨hn, by simp, ?_⟩
          intro x hx1 hx2
          simp at hx2
          subst hx2
          rcases List.mem_map.mp hx1 with ⟨a0, ha0, ha0t⟩
          exact habs a0 ha0 ha0t
      exact ih p.2 w hwf' hn' h

/-- C8: after any sequence of inserts the world holds at most one archetype
per distinct mask (the mask list is duplicate-free); a further insert whose
mask is already present returns a handle into that existing archetype and
appends nothing, while an insert with a new mask appends exactly one
archetype. -/
theorem archetype_uniqueness (sizes : List Nat) (calls : List (List (Nat × List Byte) × Nat))
    (w : WorldM) (hbuild : buildWorld sizes calls = some w) :
    (w.archetypes.map (fun a => a.types)).Nodup ∧
    (∀ (args : List (Nat × List Byte)) (N : Nat) (hnd : Handle) (w' : WorldM),
      worldInsert w args N = some (hnd, w') →
      ((∃ i a, findMaskIdx w.archetypes (asTypeSet (args.map Prod.fst)) = some i ∧
          w.archetypes[i]? = some a ∧ a.types = asTypeSet (args.map Prod.fst) ∧
          hnd.archetype = i ∧ w'.archetypes.length = w.archetypes.length) ∨
       ((∀ a ∈ w.archetypes, a.types ≠ asTypeSet (args.map Prod.fst)) ∧
          hnd.archetype = w.archetypes.length ∧
          w'.archetypes.length = w.archetypes.length + 1))) := by
  have hwf : WorldWF w := buildWorld_wf sizes calls w hbuild
  constructor
  · apply buildWorld_go_nodup calls ⟨sizes, []⟩ w
    · intro a ha
      simp at ha
    · simp
    · exact hbuild
  · intro args N hnd w' hins
    have hspec := worldInsert_spec w args N hnd w' hwf hins
    obtain ⟨hwf', hsz', hgen, hmain⟩ := hspec
    cases hfind : findMaskIdx w.archetypes (asTypeSet (args.map Prod.fst)) with
    | some i =>
      rw [hfind] at hmain
      obtain ⟨hhnd, hlen, hother, a, a', hgeta, hgeta', hty', htya, _⟩ := hmain
      exact Or.inl ⟨i, a, rfl, hgeta, htya, hhnd, hlen⟩
    | none =>
      rw [hfind] at hmain
      obtain ⟨hhnd, a', harr, hty', _⟩ := hmain
      refine Or.inr ⟨(findMaskIdx_none_iff _ _).mp hfind, hhnd, ?_⟩
      rw [harr]
      simp

/-- C3: for a registered kind of ordinal `k` and any mask with bit `k`
set, `offset_in` computes `Σ size_of(i)` over the set bits `i < k`; and
this is the byte offset at which insert stores the kind's value and at
which `entity<T>` reads it back (the value read is byte-identical to the
value inserted). -/
theorem offset_in_canonical (w : WorldM) (args : List (Nat × List Byte)) (N : Nat)
    (hnd : Handle) (w' : WorldM) (k : Nat) (v : List Byte)
    (hwf : WorldWF w) (hargs : ArgsWF w.sizes args N)
    (hN : ∀ a0 ∈ w.archetypes, a0.types = asTypeSet (args.map Prod.fst) →
      a0.data.tinfoSize = N)
    (hins : worldInsert w args N = some (hnd, w')) (hmem : (k, v) ∈ args) :
    (∀ mask : Nat, mask.testBit k = true →
      offset_in w.sizes k mask =
        ∑ i ∈ Finset.range k, (if mask.testBit i then w.sizes.getD i 0 else 0)) ∧
    sliceRow (rowSpan (.bytes (buildRow w.sizes args N)) N)
      (offset_in w.sizes k (asTypeSet (args.map Prod.fst))) (w.sizes.getD k 0) =
      v.map some ∧
    worldEntityE w' hnd [k] = .ok [v.map some] := by
  refine ⟨fun mask _ => offset_in_eq_sum w.sizes k mask, ?_, ?_⟩
  · exact read_back_arg w.sizes args N N hargs hargs.2.2 (k, v) hmem
  · obtain ⟨hszeq, A', c', hgetA, htyA, htiA, hcA, hliveA, hslotA⟩ :=
      worldInsert_handle_state w args N hnd w' hwf hN hins
    have hbit : (asTypeSet (args.map Prod.fst)).testBit k = true :=
      testBit_asTypeSet_of_mem (List.mem_map_of_mem _ hmem)
    have hmask : asTypeSet [k] &&& A'.types = asTypeSet [k] := by
      rw [htyA]
      exact asTypeSet_subset_of_mem [k] _ (by
        intro k' hk'
        simp at hk'
        subst hk'
        exact hbit)
    rw [worldEntityE_ok w' hnd [k] A' c' hgetA hmask hcA]
    rw [hslotA, htiA, htyA, hszeq]
    simp only [List.map_cons, List.map_nil]
    rw [read_back_arg w.sizes args N N hargs hargs.2.2 (k, v) hmem]

/-- C2: for distinct kinds `kA ≠ kB` and values `a`, `b`, `insert(a, b)`
and `insert(b, a)` from the same world state produce handles into the same
archetype (indeed the very same handle and the same resulting world),
write identical row bytes, and reading both components back through
`entity<A, B>` on either handle yields byte-equal values. -/
theorem insert_order_invariance (w : WorldM) (kA kB : Nat) (a b : List Byte) (N : Nat)
    (h1 h2 : Handle) (w1 w2 : WorldM)
    (hwf : WorldWF w) (hAB : kA ≠ kB)
    (hargs : ArgsWF w.sizes [(kA, a), (kB, b)] N)
    (hN : ∀ a0 ∈ w.archetypes, a0.types = asTypeSet [kA, kB] → a0.data.tinfoSize = N)
    (hins1 : worldInsert w [(kA, a), (kB, b)] N = some (h1, w1))
    (hins2 : worldInsert w [(kB, b), (kA, a)] N = some (h2, w2)) :
    h1.archetype = h2.archetype ∧ h1 = h2 ∧ w1 = w2 ∧
    buildRow w.sizes [(kA, a), (kB, b)] N = buildRow w.sizes [(kB, b), (kA, a)] N ∧
    worldEntityE w1 h1 [kA, kB] = .ok [a.map some, b.map some] ∧
    worldEntityE w2 h2 [kA, kB] = .ok [a.map some, b.map some] := by
  have hrow := buildRow_pair_comm w.sizes kA kB a b N hAB hargs
  have hmask : asTypeSet (List.map Prod.fst [(kA, a), (kB, b)]) =
      asTypeSet (List.map Prod.fst [(kB, b), (kA, a)]) := by
    simpa using asTypeSet_pair_comm kA kB
  have heq : worldInsert w [(kA, a), (kB, b)] N = worldInsert w [(kB, b), (kA, a)] N := by
    unfold worldInsert
    rw [hrow, hmask]
  have hsame : (h1, w1) = (h2, w2) := by
    apply Option.some.inj
    rw [← hins1, ← hins2, heq]
  simp only [Prod.mk.injEq] at hsame
  obtain ⟨hh, hw⟩ := hsame
  have hread : worldEntityE w1 h1 [kA, kB] = .ok [a.map some, b.map some] := by
    obtain ⟨hszeq, A', c', hgetA, htyA, htiA, hcA, hliveA, hslotA⟩ :=
      worldInsert_handle_state w [(kA, a), (kB, b)] N h1 w1 hwf hN hins1
    have hbitA : (asTypeSet (List.map Prod.fst [(kA, a), (kB, b)])).testBit kA = true :=
      testBit_asTypeSet_of_mem (by simp)
    have hbitB : (asTypeSet (List.map Prod.fst [(kA, a), (kB, b)])).testBit kB = true :=
      testBit_asTypeSet_of_mem (by simp)
    have hmsub : asTypeSet [kA, kB] &&& A'.types = asTypeSet [kA, kB] := by
      rw [htyA]
      exact asTypeSet_subset_of_mem [kA, kB] _ (by
        intro k' hk'
        rcases (by simpa using hk' : k' = kA ∨ k' = kB) with h | h
        · subst h; exact hbitA
        · subst h; exact hbitB)
    rw [worldEntityE_ok w1 h1 [kA, kB] A' c' hgetA hmsub hcA]
    rw [hslotA, htiA, htyA, hszeq]
    simp only [List.map_cons, List.map_nil]
    have e1 := read_back_arg w.sizes [(kA, a), (kB, b)] N N hargs hargs.2.2 (kA, a) (by simp)
    have e2 := read_back_arg w.sizes [(kA, a), (kB, b)] N N hargs hargs.2.2 (kB, b) (by simp)
    simp only [List.map_cons, List.map_nil] at e1 e2
    rw [e1, e2]
  exact ⟨by rw [hh], hh, hw, hrow, hread, by rw [← hh, ← hw]; exact hread⟩

theorem witEmptyWorld_wf : WorldWF witEmptyWorld :=
  fun a ha => absurd ha (List.not_mem_nil a)

/-- `query_coverage` at a concrete two-archetype world and a concrete query. -/
theorem query_coverage_witness :
    buildWorld witSizes witCalls = some witWorld ∧
    queryRun witWorld [0] (totalRows witWorld + 1) (queryInit witWorld [0]) =
      queryTraceSpec witWorld (asTypeSet [0]) :=
  ⟨rfl, query_coverage witSizes witCalls [0] witWorld rfl⟩

/-- `archetype_uniqueness` at the same concrete world. -/
theorem archetype_uniqueness_witness :
    buildWorld witSizes witCalls = some witWorld ∧
    ((witWorld.archetypes.map (fun a => a.types)).Nodup ∧
    (∀ (args : List (Nat × List Byte)) (N : Nat) (hnd : Handle) (w' : WorldM),
      worldInsert witWorld args N = some (hnd, w') →
      ((∃ i a, findMaskIdx witWorld.archetypes (asTypeSet (args.map Prod.fst)) = some i ∧
          witWorld.archetypes[i]? = some a ∧ a.types = asTypeSet (args.map Prod.fst) ∧
          hnd.archetype = i ∧ w'.archetypes.length = witWorld.archetypes.length) ∨
       ((∀ a ∈ witWorld.archetypes, a.types ≠ asTypeSet (args.map Prod.fst)) ∧
          hnd.archetype = witWorld.archetypes.length ∧
          w'.archetypes.length = witWorld.archetypes.length + 1)))) :=
  ⟨rfl, archetype_uniqueness witSizes witCalls witWorld rfl⟩

/-- `query_no_match_is_end` at the concrete world, for a mask no
archetype carries. -/
theorem query_no_match_witness :
    (∀ a ∈ witWorld.archetypes, ¬ (a.types &&& asTypeSet [2] = asTypeSet [2])) ∧
    (queryInit witWorld [2] = queryEnd (asTypeSet [2]) witWorld.archetypes.length 1 ∧
     queryEq (queryInit witWorld [2])
       (queryEnd (asTypeSet [2]) witWorld.archetypes.length 1) = true ∧
     (queryInit witWorld [2]).hCur.itemCur = none ∧
     (∀ fuel, queryRun witWorld [2] fuel (queryInit witWorld [2]) = [])) :=
  ⟨by decide, query_no_match_is_end witWorld [2] (by decide)⟩

/-- `offset_in_canonical` for the first component of a concrete insert. -/
theorem offset_in_canonical_witness :
    WorldWF witEmptyWorld ∧ ArgsWF witEmptyWorld.sizes witArgsAB 8 ∧
    (∀ a0 ∈ witEmptyWorld.archetypes, a0.types = asTypeSet (witArgsAB.map Prod.fst) →
      a0.data.tinfoSize = 8) ∧
    worldInsert witEmptyWorld witArgsAB 8 = some (witInsAB.1, witInsAB.2) ∧
    (0, [1, 2, 3, 4]) ∈ witArgsAB ∧
    ((∀ mask : Nat, mask.testBit 0 = true →
      offset_in witEmptyWorld.sizes 0 mask =
        ∑ i ∈ Finset.range 0, (if mask.testBit i then witEmptyWorld.sizes.getD i 0 else 0)) ∧
     sliceRow (rowSpan (.bytes (buildRow witEmptyWorld.sizes witArgsAB 8)) 8)
        (offset_in witEmptyWorld.sizes 0 (asTypeSet (witArgsAB.map Prod.fst)))
        (witEmptyWorld.sizes.getD 0 0) = [1, 2, 3, 4].map some ∧
     worldEntityE witInsAB.2 witInsAB.1 [0] = .ok [[1, 2, 3, 4].map some]) := by
  have hargs : ArgsWF witEmptyWorld.sizes witArgsAB 8 := ⟨by decide, by decide, by decide⟩
  have hN : ∀ a0 ∈ witEmptyWorld.archetypes, a0.types = asTypeSet (witArgsAB.map Prod.fst) →
      a0.data.tinfoSize = 8 := fun a0 ha0 => absurd ha0 (List.not_mem_nil a0)
  exact ⟨witEmptyWorld_wf, hargs, hN, rfl, by decide,
    offset_in_canonical witEmptyWorld witArgsAB 8 witInsAB.1 witInsAB.2 0 [1, 2, 3, 4]
      witEmptyWorld_wf hargs hN rfl (by decide)⟩

/-- `insert_order_invariance` at a concrete pair of inserts. -/
theorem insert_order_invariance_witness :
    WorldWF witEmptyWorld ∧ (0 : Nat) ≠ 1 ∧
    ArgsWF witEmptyWorld.sizes [(0, [1, 2, 3, 4]), (1, [5, 6, 7, 8])] 8 ∧
    (∀ a0 ∈ witEmptyWorld.archetypes, a0.types = asTypeSet [0, 1] →
      a0.data.tinfoSize = 8) ∧
    worldInsert witEmptyWorld [(0, [1, 2, 3, 4]), (1, [5, 6, 7, 8])] 8 =
      some (witInsAB.1, witInsAB.2) ∧
    worldInsert witEmptyWorld [(1, [5, 6, 7, 8]), (0, [1, 2, 3, 4])] 8 =
      some (witInsBA.1, witInsBA.2) ∧
    (witInsAB.1.archetype = witInsBA.1.archetype ∧ witInsAB.1 = witInsBA.1 ∧
     witInsAB.2 = witInsBA.2 ∧
     buildRow witEmptyWorld.sizes [(0, [1, 2, 3, 4]), (1, [5, 6, 7, 8])] 8 =
       buildRow witEmptyWorld.sizes [(1, [5, 6, 7, 8]), (0, [1, 2, 3, 4])] 8 ∧
     worldEntityE witInsAB.2 witInsAB.1 [0, 1] =
       .ok [[1, 2, 3, 4].map some, [5, 6, 7, 8].map some] ∧
     worldEntityE witInsBA.2 witInsBA.1 [0, 1] =
       .ok [[1, 2, 3, 4].map some, [5, 6, 7, 8].map some]) := by
  have hargs : ArgsWF witEmptyWorld.sizes [(0, [1, 2, 3, 4]), (1, [5, 6, 7, 8])] 8 :=
    ⟨by decide, by decide, by decide⟩
  have hN : ∀ a0 ∈ witEmptyWorld.archetypes, a0.types = asTypeSet [0, 1] →
      a0.data.tinfoSize = 8 := fun a0 ha0 => absurd ha0 (List.not_mem_nil a0)
  exact ⟨witEmptyWorld_wf, by decide, hargs, hN, rfl, rfl,
    insert_order_invariance witEmptyWorld 0 1 [1, 2, 3, 4] [5, 6, 7, 8] 8
      witInsAB.1 witInsBA.1 witInsAB.2 witInsBA.2
      witEmptyWorld_wf (by decide) hargs hN rfl rfl⟩

end Ecs
